import Mathlib

/-!
Verification of the tamper-triage pipeline of `15_edge_anomaly.py`
(GSME_compliance repository).

The Python source is shallowly embedded below: numeric values are modelled
as rationals (`ℚ`), 2-D float arrays as row-major `List (List ℚ)` grids,
npz bundles as ordered association lists from key strings to `NdArray`
values (Python dicts preserve insertion order), and exceptions as
`Except`.  Fancy numpy indexing on arrays with a zero-length axis raises
in numpy; arrays are therefore taken wellformed (`WFArr`): flat data of
length equal to the product of the shape, all extents positive.
-/

set_option maxHeartbeats 1000000

/-- Row-major 2-D array of rationals, modelling a numpy `float` matrix. -/
abbrev Grid := List (List ℚ)

/-- Flatten a grid row-major, as numpy does before taking percentiles. -/
def flatG (g : Grid) : List ℚ := g.flatten

/-- Elementwise map over a grid (numpy broadcast of a scalar function). -/
def gridMap (f : ℚ → ℚ) (g : Grid) : Grid := g.map (List.map f)

/-- Elementwise product of two grids (numpy `*`). -/
def gridMul (a b : Grid) : Grid := List.zipWith (List.zipWith (· * ·)) a b

/-- Arithmetic mean of all entries, numpy `ndarray.mean()` (sum / size). -/
def meanG (g : Grid) : ℚ := (flatG g).sum / ((flatG g).length : ℚ)

/-- The all-ones H×W grid, `np.ones((H, W))`. -/
def onesGrid (H W : Nat) : Grid := List.replicate H (List.replicate W (1 : ℚ))

/-- `g` is a proper H×W matrix: H rows, every row of width W. -/
def HasShape (g : Grid) (H W : Nat) : Prop :=
  g.length = H ∧ ∀ row ∈ g, row.length = W

instance (g : Grid) (H W : Nat) : Decidable (HasShape g H W) := by
  unfold HasShape; infer_instance

/-- Insert into an ascending-sorted list (helper for `sortQ`). -/
def insertOrd (x : ℚ) : List ℚ → List ℚ
  | [] => [x]
  | y :: ys => if x ≤ y then x :: y :: ys else y :: insertOrd x ys

/-- Ascending insertion sort, modelling the sort inside `np.percentile`. -/
def sortQ (l : List ℚ) : List ℚ := l.foldr insertOrd []

/-- `np.percentile(xs, p)` with the default linear interpolation:
virtual index `i = p/100 * (n-1)`, result `s[⌊i⌋] + frac * (s[⌊i⌋+1] - s[⌊i⌋])`
on the ascending sort `s` of the data. -/
def percentile (xs : List ℚ) (p : ℚ) : ℚ :=
  let s := sortQ xs
  let n := s.length
  let idx : ℚ := p / 100 * ((n : ℚ) - 1)
  let k : ℕ := (Int.floor idx).toNat
  let a := s.getD k 0
  let b := s.getD (k + 1) a
  a + (idx - (k : ℚ)) * (b - a)

/-- `np.clip(v, 0, 1)` on one entry. -/
def clip01 (v : ℚ) : ℚ := max 0 (min v 1)

/-- `norm01` from `load_trufor_outputs`: 1st/99th percentile rescale of a
map to [0,1]; if the percentile span is below `1e-6`, clip directly. -/
def norm01 (m : Grid) : Grid :=
  let flat := flatG m
  let lo := percentile flat 1
  let hi := percentile flat 99
  if hi - lo < 1 / 1000000 then gridMap clip01 m
  else gridMap (fun v => clip01 ((v - lo) / (hi - lo))) m

/-- A numpy array from an npz bundle: a shape and row-major flat data. -/
structure NdArray where
  shape : List Nat
  data : List ℚ
deriving DecidableEq

/-- Wellformed ndarray: data length is the product of the shape, and every
extent is positive (zero-length axes break `_pick_array`'s fancy indexing
in numpy and are out of scope). -/
def WFArr (a : NdArray) : Prop :=
  a.data.length = a.shape.prod ∧ ∀ d ∈ a.shape, 1 ≤ d

instance (a : NdArray) : Decidable (WFArr a) := by
  unfold WFArr; infer_instance

/-- An npz bundle: insertion-ordered mapping from keys to arrays. -/
abbrev Bundle := List (String × NdArray)

/-- Does the character list `s` start with `p`? -/
def startsWithChars : List Char → List Char → Bool
  | _, [] => true
  | [], _ :: _ => false
  | a :: as, b :: bs => a == b && startsWithChars as bs

/-- Does the character list `s` contain `p` as a contiguous run?
(Python `token in key`.) -/
def containsTok : List Char → List Char → Bool
  | [], p => p.isEmpty
  | s@(_ :: rest), p => startsWithChars s p || containsTok rest p

/-- `token in k.lower()` from `_pick_array.name_rank`. -/
def keyHasToken (k tok : String) : Bool :=
  containsTok (k.data.map Char.toLower) tok.data

/-- `name_rank`: index of the first priority token contained in the
lowered key, `999` when none matches. -/
def rankOf (prio : List String) (k : String) : Nat :=
  go prio 0
where
  go : List String → Nat → Nat
    | [], _ => 999
    | t :: ts, i => if keyHasToken k t then i else go ts (i + 1)

/-- Name-priority tokens for the `score` role. -/
def scorePrio : List String := ["score", "global", "integrity", "sigmoid"]

/-- Name-priority tokens for the `loc` role. -/
def locPrio : List String := ["map", "mask", "loc", "pred", "tamper"]

/-- Name-priority tokens for the `rel` role. -/
def relPrio : List String := ["reliab", "conf", "uncert"]

/-- Every `n`-th element of `data` starting at index 0, `count` elements
(numpy `arr[..., 0]` on a channel-last array, taken with fuel). -/
def strideCol (n : Nat) (data : List ℚ) : Nat → List ℚ
  | 0 => []
  | count + 1 => data.headD 0 :: strideCol n (data.drop n) count

/-- The `_pick_array` shape filter for the map roles: a 2-D (H, W) array
is taken as is; a 3-D array with trailing axes (H, W) is squeezed to its
first channel when the leading extent is 1 and to its last channel
otherwise; a 3-D array with leading axes (H, W) yields `arr[..., 0]`.
Returns the flat H*W data of the squeezed candidate. -/
def mapCandFlat (a : NdArray) (H W : Nat) : Option (List ℚ) :=
  match a.shape with
  | [h, w] => if h = H ∧ w = W then some a.data else none
  | [c, h, w] =>
    if h = H ∧ w = W then
      some (if c = 1 then a.data.take (H * W)
            else (a.data.drop ((c - 1) * (H * W))).take (H * W))
    else if c = H ∧ h = W then some (strideCol w a.data (H * W))
    else none
  | _ => none

/-- First element of minimal first component; equals the head of a stable
sort by that component (`cand.sort(key=rank); cand[0]`). -/
def chooseBest : List (Nat × List ℚ) → Option (Nat × List ℚ)
  | [] => none
  | c :: cs =>
    match chooseBest cs with
    | none => some c
    | some d => if c.1 ≤ d.1 then some c else some d

/-- Candidates for the `score` role: size-1 entries with their name rank
and their single value (`float(score_arr.reshape(-1)[0])`). -/
def scoreCands (bundle : Bundle) : List (Nat × List ℚ) :=
  bundle.filterMap fun e =>
    if e.2.shape.prod = 1 then some (rankOf scorePrio e.1, e.2.data) else none

/-- Candidates for a map role: shape-compatible entries with their name
rank and squeezed flat data. -/
def mapCands (bundle : Bundle) (prio : List String) (H W : Nat) :
    List (Nat × List ℚ) :=
  bundle.filterMap fun e =>
    (mapCandFlat e.2 H W).map fun flat => (rankOf prio e.1, flat)

/-- Reshape flat data into `h` rows of width `w` (`toRows` helper). -/
def toRows (w : Nat) (data : List ℚ) : Nat → Grid
  | 0 => []
  | h + 1 => data.take w :: toRows w (data.drop w) h

/-- `_pick_array(npz, 'score', H, W)`: best-ranked size-1 entry's value. -/
def pickScore (bundle : Bundle) : Option ℚ :=
  (chooseBest (scoreCands bundle)).map fun c => c.2.headD 0

/-- `_pick_array` for a map role: best-ranked shape-compatible entry,
reshaped to an H×W grid. -/
def pickMapGrid (bundle : Bundle) (prio : List String) (H W : Nat) :
    Option Grid :=
  (chooseBest (mapCands bundle prio H W)).map fun c => toRows W c.2 H

/-- The last-resort scalar search in `load_trufor_outputs`: the first
size-1 entry in bundle iteration order. -/
def lastResortScore (bundle : Bundle) : Option ℚ :=
  (bundle.find? fun e => e.2.shape.prod = 1).map fun e => e.2.data.headD 0

/-- The score value `load_trufor_outputs` ends up with (picker result,
else the last-resort scan). -/
def finalScore (bundle : Bundle) : Option ℚ :=
  match pickScore bundle with
  | some v => some v
  | none => lastResortScore bundle

/-- `ResolvedOutputs`: the three semantic roles extracted from a bundle. -/
structure ResolvedOutputs where
  score : ℚ
  loc : Grid
  rel : Grid
deriving DecidableEq

/-- `load_trufor_outputs`: resolve the three roles from a bundle for an
H×W image.  The `KeyError` raised when the score or the localization map
cannot be inferred is modelled as `Except.error` carrying the list of
available keys (the message lists exactly those keys).  A missing
reliability map is replaced by all-ones; both maps are normalized. -/
def load_trufor_outputs (bundle : Bundle) (H W : Nat) :
    Except (List String) ResolvedOutputs :=
  match finalScore bundle, pickMapGrid bundle locPrio H W with
  | none, _ => .error (bundle.map Prod.fst)
  | some _, none => .error (bundle.map Prod.fst)
  | some sc, some locRaw =>
    let relRaw :=
      match pickMapGrid bundle relPrio H W with
      | none => onesGrid H W
      | some r => r
    .ok ⟨sc, norm01 locRaw, norm01 relRaw⟩

/-- `clamp_box(x, y, w, h, W, H)`: clamp a box into the W×H image, with
strictly positive width and height. -/
def clamp_box (x y w h W H : ℤ) : ℤ × ℤ × ℤ × ℤ :=
  let x' := max 0 (min x (W - 1))
  let y' := max 0 (min y (H - 1))
  let w' := max 1 (min w (W - x'))
  let h' := max 1 (min h (H - y'))
  (x', y', w', h')

/-- `crop(img, x, y, w, h) = img[y:y+h, x:x+w]`. -/
def cropG (g : Grid) (x y w h : Nat) : Grid :=
  ((g.drop y).take h).map fun row => (row.drop x).take w

/-- An OCR line region (`Box` dataclass). -/
structure Box where
  x : ℤ
  y : ℤ
  w : ℤ
  h : ℤ
  text : String
  conf : ℚ
deriving DecidableEq

/-- `roi_anomaly_score(loc, rel, roi, rel_min)`: clamp the box to the
localization map's shape, crop both maps, build the 0/1 reliability mask
`rel >= rel_min`; if the mask covers less than 15% of the crop return the
downweighted `mean(loc*rel) * 0.25`, otherwise `mean(loc*mask)`. -/
def roi_anomaly_score (loc rel : Grid) (roi : Box) (rel_min : ℚ) : ℚ :=
  match clamp_box roi.x roi.y roi.w roi.h ((loc.headD []).length : ℤ)
      (loc.length : ℤ) with
  | (x, y, w, h) =>
    let l := cropG loc x.toNat y.toNat w.toNat h.toNat
    let r := cropG rel x.toNat y.toNat w.toNat h.toNat
    let m := gridMap (fun v => if rel_min ≤ v then (1 : ℚ) else 0) r
    if meanG m < 15 / 100 then meanG (gridMul l r) * (1 / 4)
    else meanG (gridMul l m)

/-- One token of `pytesseract.image_to_data` output: text, confidence
(`none` when `float(...)` would fail and the code falls back to `-1.0`),
box, and the block/paragraph/line grouping identity. -/
structure OcrToken where
  text : String
  conf : Option ℚ
  left : ℤ
  top : ℤ
  width : ℤ
  height : ℤ
  block : ℕ
  par : ℕ
  line : ℕ
deriving DecidableEq

/-- The (block_num, par_num, line_num) grouping key of a token. -/
abbrev LineKey := ℕ × ℕ × ℕ

/-- The grouping key of a token. -/
def tkey (t : OcrToken) : LineKey := (t.block, t.par, t.line)

/-- Python `str.strip()` on a character list: drop whitespace from both
ends. -/
def stripChars (l : List Char) : List Char :=
  ((l.dropWhile Char.isWhitespace).reverse.dropWhile Char.isWhitespace).reverse

/-- Python `str.strip()`. -/
def strip (s : String) : String := ⟨stripChars s.data⟩

/-- Python `" ".join(words)`. -/
def joinWords : List String → String
  | [] => ""
  | [w] => w
  | w :: ws => w ++ " " ++ joinWords ws

/-- `any(ch.isdigit() for ch in text)`. -/
def hasDigit (s : String) : Bool := s.data.any Char.isDigit

/-- Per-line accumulator of `ocr_line_boxes` (the `lines[key]` dict). -/
structure LineAcc where
  x1 : ℤ
  y1 : ℤ
  x2 : ℤ
  y2 : ℤ
  words : List String
  conf_sum : ℚ
  conf_n : ℕ
deriving DecidableEq

/-- Merge one more token into a line accumulator. -/
def mergeAcc (d : LineAcc) (x y w h : ℤ) (txt : String) (conf : ℚ) :
    LineAcc :=
  ⟨min d.x1 x, min d.y1 y, max d.x2 (x + w), max d.y2 (y + h),
    d.words ++ [txt], d.conf_sum + conf, d.conf_n + 1⟩

/-- Insert a token into the insertion-ordered line table: update the
matching key in place, else append a fresh accumulator at the end. -/
def updateLines (lines : List (LineKey × LineAcc)) (k : LineKey)
    (x y w h : ℤ) (txt : String) (conf : ℚ) : List (LineKey × LineAcc) :=
  match lines with
  | [] => [(k, ⟨x, y, x + w, y + h, [txt], conf, 1⟩)]
  | (k', d) :: rest =>
    if k' = k then (k', mergeAcc d x y w h txt conf) :: rest
    else (k', d) :: updateLines rest k x y w h txt conf

/-- The per-token body of the first loop of `ocr_line_boxes`: skip
empty-text tokens, tokens below the confidence minimum, and tokens whose
box is below the size minimum; group the rest by line key. -/
def tokenStep (mc : ℚ) (ms : ℤ) (lines : List (LineKey × LineAcc))
    (t : OcrToken) : List (LineKey × LineAcc) :=
  let txt := strip t.text
  if txt = "" then lines
  else
    let conf := t.conf.getD (-1)
    if conf < mc then lines
    else if t.width < ms ∨ t.height < ms then lines
    else updateLines lines (tkey t) t.left t.top t.width t.height txt conf

/-- The second loop of `ocr_line_boxes`: build a `Box` from each line,
keeping only digit-bearing lines whose union box meets the size minimum. -/
def buildBox (ms : ℤ) (d : LineAcc) : Option Box :=
  let text := strip (joinWords d.words)
  if hasDigit text then
    let w := d.x2 - d.x1
    let h := d.y2 - d.y1
    if w < ms ∨ h < ms then none
    else some ⟨d.x1, d.y1, w, h, text, d.conf_sum / ((max 1 d.conf_n : ℕ) : ℚ)⟩
  else none

/-- `ocr_line_boxes(img, min_conf, min_size)` on the token list returned
by the OCR engine for the image. -/
def ocr_line_boxes (tokens : List OcrToken) (mc : ℚ) (ms : ℤ) : List Box :=
  (tokens.foldl (tokenStep mc ms) []).filterMap fun kd => buildBox ms kd.2

/-- Score every extracted region (the loop body of `analyze_image`). -/
def scoreRegions (r : ResolvedOutputs) (rois : List Box) (rm : ℚ) :
    List (Box × ℚ) :=
  rois.map fun b => (b, roi_anomaly_score r.loc r.rel b rm)

/-- The `max_roi` / `best_roi` accumulation of `analyze_image`: start at
`(0.0, None)`, replace on a strictly larger score. -/
def bestFold (scored : List (Box × ℚ)) : ℚ × Option Box :=
  scored.foldl (fun acc p => if acc.1 < p.2 then (p.2, some p.1) else acc)
    (0, none)

/-- The result dictionary of `analyze_image` (fields absent from the
early error dictionary are `none`; `main` reads them with `.get`). -/
structure AnalyzeDict where
  status : String
  error : String
  trufor_score : Option ℚ
  max_roi_score : Option ℚ
  n_rois : Option ℕ
  best_roi : Option Box
deriving DecidableEq

/-- The `{"status": "error", ...}` dictionary for an unreadable image. -/
def errorDict (msg : String) : AnalyzeDict :=
  ⟨"error", msg, none, none, none, none⟩

/-- The `KeyError` message of `load_trufor_outputs`, listing the keys. -/
def keyErrMsg (keys : List String) : String :=
  "Could not infer required outputs. Available keys: "
    ++ String.intercalate ", " keys

/-- `analyze_image`: read the image (an unreadable image returns the
error dictionary), run the forensics model (a failure raises), resolve
the bundle (a `KeyError` raises), OCR the image (an engine failure
raises), score the regions, and decide `flagged` versus `ok`.
`Except.error` models an exception propagating out of the function. -/
def analyze_image (imgDims : Option (ℕ × ℕ))
    (truforOutcome : Except String Bundle)
    (ocrOutcome : Except String (List OcrToken))
    (mc : ℚ) (ms : ℤ) (global_thresh roi_thresh rel_min : ℚ) :
    Except String AnalyzeDict :=
  match imgDims with
  | none => .ok (errorDict "Could not read image")
  | some (H, W) =>
    match truforOutcome with
    | .error e => .error e
    | .ok bundle =>
      match load_trufor_outputs bundle H W with
      | .error keys => .error (keyErrMsg keys)
      | .ok outs =>
        match ocrOutcome with
        | .error e => .error e
        | .ok tokens =>
          let rois := ocr_line_boxes tokens mc ms
          let best := bestFold (scoreRegions outs rois rel_min)
          let flagged :=
            global_thresh ≤ outs.score ∨ roi_thresh ≤ best.1
          .ok ⟨if flagged then "flagged" else "ok", "",
               some outs.score, some best.1, some rois.length, best.2⟩

/-- One row of the report produced by `main` for one existing image
path: the status and error columns, and whether `save_crop` ran. -/
structure Row where
  status : String
  error : String
  crop_written : Bool
deriving DecidableEq

/-- The per-image body of `main`'s loop for an existing file: call
`analyze_image` (any exception becomes an error row), and write the
evidence crop exactly when the status is `flagged` and a best region
exists. -/
def processImage (imgDims : Option (ℕ × ℕ))
    (truforOutcome : Except String Bundle)
    (ocrOutcome : Except String (List OcrToken))
    (mc : ℚ) (ms : ℤ) (gt rt rm : ℚ) : Row :=
  match analyze_image imgDims truforOutcome ocrOutcome mc ms gt rt rm with
  | .error e => ⟨"error", e, false⟩
  | .ok d => ⟨d.status, d.error, d.status == "flagged" && d.best_roi.isSome⟩

deriving instance DecidableEq for Except

unseal Rat.add Rat.mul Rat.inv Rat.sub

/-! ## Concrete inputs shared by several examples -/

/-- A resolvable bundle: a 0-d score scalar 3/10 and a constant 2×2 map. -/
def sampleBundle : Bundle :=
  [("score", ⟨[], [3 / 10]⟩), ("map", ⟨[2, 2], [1, 1, 1, 1]⟩)]

/-- A bundle holding only a score scalar, no (H, W)-compatible array. -/
def scoreOnlyBundle : Bundle := [("score", ⟨[], [1 / 2]⟩)]

/-- A bundle whose only scalar entry is 2, outside [0, 1]. -/
def bigScoreBundle : Bundle :=
  [("integrity", ⟨[1], [2]⟩), ("map", ⟨[2, 2], [1, 1, 1, 1]⟩)]


/-- A 51-entry map already in normalized form: values in [0,1] spanning
the full unit interval, and itself the output of `norm01` on `c8Raw`. -/
def c8Row : List ℚ := [0] ++ List.replicate 48 (1 / 3) ++ [1, 1]

/-- A raw map whose `norm01` image is exactly `c8Row`. -/
def c8Raw : List ℚ := [-1] ++ List.replicate 48 0 ++ [1, 1]


/-- A bundle flagged by its global score whose localization map is all
zeros, so every region scores 0. -/
def zeroMapBundle : Bundle :=
  [("score", ⟨[], [7 / 10]⟩), ("map", ⟨[2, 2], [0, 0, 0, 0]⟩)]

/-- A large digit-bearing OCR token passing all filters. -/
def bigTok : OcrToken := ⟨"7h", some 90, 0, 0, 30, 20, 1, 1, 1⟩

/-- A second large digit-bearing OCR token on the same line. -/
def bigTok2 : OcrToken := ⟨"35m", some 90, 40, 0, 30, 20, 1, 1, 1⟩


/-! ## General helper lemmas -/

theorem chooseBest_mem {l : List (Nat × List ℚ)} {c : Nat × List ℚ}
    (h : chooseBest l = some c) : c ∈ l := by
  induction l with
  | nil => simp [chooseBest] at h
  | cons a as ih =>
    rw [chooseBest] at h
    cases hcb : chooseBest as with
    | none =>
      rw [hcb] at h
      simp only [Option.some.injEq] at h
      simp [h]
    | some d =>
      rw [hcb] at h
      by_cases hle : a.1 ≤ d.1
      · simp only [if_pos hle, Option.some.injEq] at h
        simp [h]
      · simp only [if_neg hle, Option.some.injEq] at h
        cases h
        exact List.mem_cons_of_mem a (ih hcb)

theorem chooseBest_ne_none {l : List (Nat × List ℚ)} (h : l ≠ []) :
    ∃ c, chooseBest l = some c := by
  cases l with
  | nil => exact absurd rfl h
  | cons a as =>
    rw [chooseBest]
    cases chooseBest as with
    | none => exact ⟨a, rfl⟩
    | some d =>
      by_cases hle : a.1 ≤ d.1
      · exact ⟨a, by simp [hle]⟩
      · exact ⟨d, by simp [hle]⟩

theorem sortQ_length (l : List ℚ) : (sortQ l).length = l.length := by
  induction l with
  | nil => rfl
  | cons a as ih =>
    have step : ∀ (x : ℚ) (s : List ℚ),
        (insertOrd x s).length = s.length + 1 := by
      intro x s
      induction s with
      | nil => rfl
      | cons y ys ihy =>
        by_cases hxy : x ≤ y
        · simp [insertOrd, hxy]
        · simp [insertOrd, hxy, ihy]
    simpa [sortQ, step] using ih

theorem mem_sortQ {l : List ℚ} {v : ℚ} (h : v ∈ sortQ l) : v ∈ l := by
  induction l with
  | nil => simpa [sortQ] using h
  | cons a as ih =>
    have step : ∀ (x v : ℚ) (s : List ℚ), v ∈ insertOrd x s → v = x ∨ v ∈ s := by
      intro x v s hv
      induction s with
      | nil => simpa [insertOrd] using hv
      | cons y ys ihy =>
        by_cases hxy : x ≤ y
        · simpa [insertOrd, hxy] using hv
        · simp only [insertOrd, if_neg hxy, List.mem_cons] at hv
          rcases hv with h1 | h2
          · exact Or.inr (by simp [h1])
          · rcases ihy h2 with h3 | h4
            · exact Or.inl h3
            · exact Or.inr (List.mem_cons_of_mem _ h4)
    simp only [sortQ, List.foldr] at h
    rcases step a v _ h with h1 | h2
    · simp [h1]
    · exact List.mem_cons_of_mem _ (ih h2)

theorem getD_mem_of_lt (l : List ℚ) (d : ℚ) :
    ∀ i, i < l.length → l.getD i d ∈ l := by
  induction l with
  | nil => intro i h; simp at h
  | cons a as ih =>
    intro i h
    cases i with
    | zero => simp [List.getD]
    | succ j =>
      have : j < as.length := by simpa using h
      simpa [List.getD] using Or.inr (by simpa [List.getD] using ih j this)

theorem getD_of_ge (l : List ℚ) (d : ℚ) :
    ∀ i, l.length ≤ i → l.getD i d = d := by
  induction l with
  | nil => intro i _; simp [List.getD]
  | cons a as ih =>
    intro i h
    cases i with
    | zero => simp at h
    | succ j => simpa [List.getD] using ih j (by simpa using h)

theorem percentile_const {xs : List ℚ} {c : ℚ} (hne : xs ≠ [])
    (hall : ∀ v ∈ xs, v = c) {p : ℚ} (hp0 : 0 ≤ p) (hp1 : p ≤ 100) :
    percentile xs p = c := by
  have hsall : ∀ v ∈ sortQ xs, v = c := fun v hv => hall v (mem_sortQ hv)
  have hpos : 0 < (sortQ xs).length := by
    rw [sortQ_length]
    cases xs with
    | nil => exact absurd rfl hne
    | cons a as => simp
  dsimp only [percentile]
  set s := sortQ xs with hs
  set n := s.length with hn
  set idx : ℚ := p / 100 * ((n : ℚ) - 1) with hidx
  set k : ℕ := (Int.floor idx).toNat with hk
  have hn1 : (1 : ℚ) ≤ (n : ℚ) := by exact_mod_cast hpos
  have hidxle : idx ≤ (n : ℚ) - 1 := by
    have h1 : p / 100 ≤ 1 := by linarith [(div_le_one (by norm_num : (0:ℚ) < 100)).mpr hp1]
    have h2 : (0 : ℚ) ≤ (n : ℚ) - 1 := by linarith
    calc p / 100 * ((n : ℚ) - 1) ≤ 1 * ((n : ℚ) - 1) :=
          mul_le_mul_of_nonneg_right h1 h2
      _ = (n : ℚ) - 1 := one_mul _
  have hkn : k < n := by
    have h4 : Int.floor idx ≤ Int.floor ((n : ℚ) - 1) := Int.floor_le_floor hidxle
    have h5 : Int.floor ((n : ℚ) - 1) = (n : ℤ) - 1 := by
      rw [show ((n : ℚ) - 1) = (((n : ℤ) - 1 : ℤ) : ℚ) by push_cast; ring,
        Int.floor_intCast]
    rw [h5] at h4
    omega
  have ha : s.getD k 0 = c := hsall _ (getD_mem_of_lt s 0 k hkn)
  have hb : s.getD (k + 1) (s.getD k 0) = c := by
    by_cases hk1 : k + 1 < n
    · exact hsall _ (getD_mem_of_lt s _ _ hk1)
    · rw [getD_of_ge s _ _ (by omega), ha]
  rw [ha] at hb
  rw [ha, hb]
  ring

theorem map_eq_self_of_fix {f : ℚ → ℚ} {l : List ℚ}
    (h : ∀ v ∈ l, f v = v) : l.map f = l := by
  induction l with
  | nil => rfl
  | cons a as ih =>
    simp only [List.map_cons, h a (List.mem_cons_self a as)]
    rw [ih fun v hv => h v (List.mem_cons_of_mem a hv)]

theorem clip01_of_unit {v : ℚ} (h0 : 0 ≤ v) (h1 : v ≤ 1) : clip01 v = v := by
  unfold clip01
  rw [min_eq_left h1, max_eq_right h0]

theorem clip01_mem_unit (v : ℚ) : 0 ≤ clip01 v ∧ clip01 v ≤ 1 := by
  unfold clip01
  constructor
  · exact le_max_left 0 _
  · exact max_le (by norm_num) (min_le_right v 1)

theorem mem_flatG_of_mem {g : Grid} {row : List ℚ} {v : ℚ}
    (hrow : row ∈ g) (hv : v ∈ row) : v ∈ flatG g :=
  List.mem_flatten.mpr ⟨row, hrow, hv⟩

theorem gridMap_fix {f : ℚ → ℚ} {g : Grid}
    (h : ∀ v ∈ flatG g, f v = v) : gridMap f g = g := by
  unfold gridMap
  induction g with
  | nil => rfl
  | cons row rows ih =>
    simp only [List.map_cons]
    rw [map_eq_self_of_fix fun v hv =>
        h v (mem_flatG_of_mem (List.mem_cons_self row rows) hv)]
    rw [ih fun v hv => by
      rcases List.mem_flatten.mp hv with ⟨r, hr, hvr⟩
      exact h v (mem_flatG_of_mem (List.mem_cons_of_mem row hr) hvr)]

theorem sum_nonneg_of_unit {l : List ℚ} (h : ∀ v ∈ l, 0 ≤ v) : 0 ≤ l.sum := by
  induction l with
  | nil => simp
  | cons a as ih =>
    simp only [List.sum_cons]
    have ha := h a (List.mem_cons_self a as)
    have := ih fun v hv => h v (List.mem_cons_of_mem a hv)
    linarith

theorem sum_le_length_of_unit {l : List ℚ} (h : ∀ v ∈ l, v ≤ 1) :
    l.sum ≤ (l.length : ℚ) := by
  induction l with
  | nil => simp
  | cons a as ih =>
    simp only [List.sum_cons, List.length_cons]
    have ha := h a (List.mem_cons_self a as)
    have := ih fun v hv => h v (List.mem_cons_of_mem a hv)
    push_cast
    linarith

theorem meanG_unit {g : Grid} (hne : flatG g ≠ [])
    (h : ∀ v ∈ flatG g, 0 ≤ v ∧ v ≤ 1) : 0 ≤ meanG g ∧ meanG g ≤ 1 := by
  have hlen : 0 < ((flatG g).length : ℚ) := by
    have : 0 < (flatG g).length := List.length_pos.mpr hne
    exact_mod_cast this
  have hsum0 : 0 ≤ (flatG g).sum := sum_nonneg_of_unit fun v hv => (h v hv).1
  have hsum1 : (flatG g).sum ≤ ((flatG g).length : ℚ) :=
    sum_le_length_of_unit fun v hv => (h v hv).2
  unfold meanG
  constructor
  · positivity
  · rw [div_le_one hlen]
    exact hsum1

theorem flatG_onesGrid_mem {H W : Nat} {v : ℚ}
    (h : v ∈ flatG (onesGrid H W)) : v = 1 := by
  rcases List.mem_flatten.mp h with ⟨row, hrow, hv⟩
  have := List.eq_of_mem_replicate hrow
  subst this
  exact List.eq_of_mem_replicate hv

theorem flatG_onesGrid_ne_nil {H W : Nat} (hH : 1 ≤ H) (hW : 1 ≤ W) :
    flatG (onesGrid H W) ≠ [] := by
  intro hcon
  have h1 : List.replicate W (1 : ℚ) ∈ onesGrid H W :=
    List.mem_replicate.mpr ⟨by omega, rfl⟩
  have h2 : (1 : ℚ) ∈ List.replicate W (1 : ℚ) :=
    List.mem_replicate.mpr ⟨by omega, rfl⟩
  have := mem_flatG_of_mem h1 h2
  rw [hcon] at this
  exact List.not_mem_nil 1 this

theorem norm01_eq (m : Grid) :
    norm01 m =
      if percentile (flatG m) 99 - percentile (flatG m) 1 < 1 / 1000000
      then gridMap clip01 m
      else gridMap (fun v => clip01 ((v - percentile (flatG m) 1) /
        (percentile (flatG m) 99 - percentile (flatG m) 1))) m := rfl

theorem norm01_onesGrid {H W : Nat} (hH : 1 ≤ H) (hW : 1 ≤ W) :
    norm01 (onesGrid H W) = onesGrid H W := by
  have hne := flatG_onesGrid_ne_nil (H := H) (W := W) hH hW
  have hconst : ∀ v ∈ flatG (onesGrid H W), v = 1 := fun v hv =>
    flatG_onesGrid_mem hv
  have hlo : percentile (flatG (onesGrid H W)) 1 = 1 :=
    percentile_const hne hconst (by norm_num) (by norm_num)
  have hhi : percentile (flatG (onesGrid H W)) 99 = 1 :=
    percentile_const hne hconst (by norm_num) (by norm_num)
  rw [norm01_eq, hlo, hhi, if_pos (by norm_num)]
  exact gridMap_fix fun v hv => by
    rw [hconst v hv]; exact clip01_of_unit (by norm_num) (by norm_num)

theorem gridMap_shape {f : ℚ → ℚ} {g : Grid} {H W : Nat}
    (h : HasShape g H W) : HasShape (gridMap f g) H W := by
  obtain ⟨h1, h2⟩ := h
  constructor
  · simpa [gridMap] using h1
  · intro row hrow
    rcases List.mem_map.mp hrow with ⟨r, hr, hmap⟩
    rw [← hmap, List.length_map]
    exact h2 r hr

theorem norm01_shape {g : Grid} {H W : Nat} (h : HasShape g H W) :
    HasShape (norm01 g) H W := by
  rw [norm01_eq]
  by_cases hc : percentile (flatG g) 99 - percentile (flatG g) 1 < 1 / 1000000
  · rw [if_pos hc]; exact gridMap_shape h
  · rw [if_neg hc]; exact gridMap_shape h

/-! ## Claim C2 -/

/-- Claim C2 (confirmed): for every region, localization map and
reliability map, with the reliability mask the 0/1 indicator of
`reliabilityMap ≥ relMin` on the region's (clamped) crop, the region's
anomaly score is the mean of `localizationMap × mask` over the crop when
the mask's mean coverage is at least 0.15, and `0.25 × mean(loc × rel)`
over the crop when the coverage is below 0.15. -/
theorem C2_theorem (loc rel : Grid) (roi : Box) (rel_min : ℚ) :
    roi_anomaly_score loc rel roi rel_min =
      (let c := clamp_box roi.x roi.y roi.w roi.h ((loc.headD []).length : ℤ)
        (loc.length : ℤ)
       let lC := cropG loc c.1.toNat c.2.1.toNat c.2.2.1.toNat c.2.2.2.toNat
       let rC := cropG rel c.1.toNat c.2.1.toNat c.2.2.1.toNat c.2.2.2.toNat
       let mask := gridMap (fun v => if rel_min ≤ v then (1 : ℚ) else 0) rC
       if 15 / 100 ≤ meanG mask then meanG (gridMul lC mask)
       else 1 / 4 * meanG (gridMul lC rC)) := by
  unfold roi_anomaly_score
  rcases hcb : clamp_box roi.x roi.y roi.w roi.h ((loc.headD []).length : ℤ)
      (loc.length : ℤ) with ⟨x, y, w, h⟩
  dsimp only
  set mask := gridMap (fun v => if rel_min ≤ v then (1 : ℚ) else 0)
    (cropG rel x.toNat y.toNat w.toNat h.toNat) with hmask
  rcases lt_or_le (meanG mask) (15 / 100) with hlt | hge
  · rw [if_pos hlt, if_neg (not_le.mpr hlt)]
    ring
  · rw [if_neg (not_lt.mpr hge), if_pos hge]

/-! ## Claim C8 -/

/-- Claim C8 is false as stated: `c8Row` spans [0,1] and is itself an
output of the normalization (`norm01 [c8Raw] = [c8Row]`), yet
re-normalizing moves its second entry from 1/3 to 1/5 — a shift of 2/15,
far beyond any small numeric tolerance. -/
theorem C8_counterexample :
    norm01 [c8Raw] = [c8Row] ∧
    (∀ v ∈ c8Row, 0 ≤ v ∧ v ≤ 1) ∧ (0 : ℚ) ∈ c8Row ∧ (1 : ℚ) ∈ c8Row ∧
    ((norm01 [c8Row]).headD []).getD 1 0 = 1 / 5 ∧
    c8Row.getD 1 0 = 1 / 3 ∧
    ¬(|((norm01 [c8Row]).headD []).getD 1 0 - c8Row.getD 1 0| ≤ 1 / 10) := by
  decide

/-- Claim C8 (amended): the normalization is exactly idempotent on a map
whose values already lie in [0,1] and whose 1st–99th percentile span is
below the `1e-6` epsilon (the clip branch); when the span reaches the
epsilon, re-normalization can move entries by more than 0.1. -/
theorem C8_theorem (m : Grid) (hvals : ∀ v ∈ flatG m, 0 ≤ v ∧ v ≤ 1)
    (hspan : percentile (flatG m) 99 - percentile (flatG m) 1 < 1 / 1000000) :
    norm01 m = m := by
  rw [norm01_eq, if_pos hspan]
  exact gridMap_fix fun v hv => clip01_of_unit (hvals v hv).1 (hvals v hv).2

/-- Witness for C8: a constant map in [0,1] is left unchanged. -/
theorem C8_witness : norm01 [[(1 : ℚ) / 2]] = [[(1 : ℚ) / 2]] :=
  C8_theorem [[(1 : ℚ) / 2]] (by decide) (by decide)

/-! ## Claim C1 -/

/-- Claim C1 is false as stated once `roiThresh ≤ 0`: at `roiThresh = 0`
with zero candidate regions, `maxRegionScore` is 0 and the global score
3/10 is below the global threshold 1/2, yet the status is `flagged` —
the ROI comparison `0 ≥ roiThresh` fires, so flagging is not produced by
the global-score comparison alone. -/
theorem C1_counterexample :
    analyze_image (some (2, 2)) (.ok sampleBundle) (.ok []) 40 18 (1 / 2) 0
        (2 / 5) =
      .ok ⟨"flagged", "", some (3 / 10), some 0, some 0, none⟩ ∧
    ¬((1 : ℚ) / 2 ≤ 3 / 10) := by
  constructor
  · decide
  · decide

/-- Claim C1 (amended): for every analysis that completes without error,
the status is `flagged` exactly when the global score reaches the global
threshold or the maximal region score reaches the ROI threshold, and `ok`
otherwise; when zero candidate regions were extracted the maximal region
score is 0, so — provided the ROI threshold is positive — only the
global-score comparison can produce `flagged`. -/
theorem C1_theorem (imgDims : Option (ℕ × ℕ)) (tf : Except String Bundle)
    (oc : Except String (List OcrToken)) (mc : ℚ) (ms : ℤ) (gt rt rm : ℚ)
    (d : AnalyzeDict)
    (hok : analyze_image imgDims tf oc mc ms gt rt rm = .ok d)
    (hne : d.status ≠ "error") :
    ∃ s m, d.trufor_score = some s ∧ d.max_roi_score = some m ∧
      (d.status = "flagged" ↔ (gt ≤ s ∨ rt ≤ m)) ∧
      (d.status = "flagged" ∨ d.status = "ok") ∧
      (d.n_rois = some 0 →
        m = 0 ∧ (0 < rt → (d.status = "flagged" ↔ gt ≤ s))) := by
  cases imgDims with
  | none =>
    simp only [analyze_image, Except.ok.injEq] at hok
    rw [← hok] at hne
    exact absurd rfl hne
  | some hw =>
    obtain ⟨H, W⟩ := hw
    cases tf with
    | error e => simp [analyze_image] at hok
    | ok bundle =>
      cases hload : load_trufor_outputs bundle H W with
      | error ks => simp [analyze_image, hload] at hok
      | ok outs =>
        cases oc with
        | error e => simp [analyze_image, hload] at hok
        | ok tokens =>
          simp only [analyze_image, hload, Except.ok.injEq] at hok
          subst hok
          refine ⟨outs.score,
            (bestFold (scoreRegions outs (ocr_line_boxes tokens mc ms) rm)).1,
            rfl, rfl, ?_, ?_, ?_⟩
          · by_cases hflag : gt ≤ outs.score ∨
                rt ≤ (bestFold (scoreRegions outs (ocr_line_boxes tokens mc ms) rm)).1
            · simpa [hflag] using hflag
            · simp [hflag]
          · by_cases hflag : gt ≤ outs.score ∨
                rt ≤ (bestFold (scoreRegions outs (ocr_line_boxes tokens mc ms) rm)).1
            · simp [hflag]
            · simp [hflag]
          · intro h0
            have hlen : (ocr_line_boxes tokens mc ms).length = 0 := by
              simpa using h0
            have hnil : ocr_line_boxes tokens mc ms = [] :=
              List.length_eq_zero.mp hlen
            rw [hnil]
            have hbf : bestFold (scoreRegions outs [] rm) = (0, none) := rfl
            constructor
            · simp [hbf]
            · intro hrt
              have hno : ¬(rt ≤ (bestFold (scoreRegions outs [] rm)).1) := by
                rw [hbf]; exact not_le.mpr hrt
              by_cases hg : gt ≤ outs.score
              · simp [hg, hno]
              · simp [hg, hno]

/-- Witness for C1: a concrete error-free run with zero regions, a
positive ROI threshold, and a global score below the global threshold. -/
theorem C1_witness :
    ∃ s m,
      (AnalyzeDict.mk "ok" "" (some (3 / 10)) (some 0) (some 0)
          none).trufor_score = some s ∧
      (AnalyzeDict.mk "ok" "" (some (3 / 10)) (some 0) (some 0)
          none).max_roi_score = some m ∧
      ((AnalyzeDict.mk "ok" "" (some (3 / 10)) (some 0) (some 0)
          none).status = "flagged" ↔ ((1 : ℚ) / 2 ≤ s ∨ 22 / 100 ≤ m)) ∧
      ((AnalyzeDict.mk "ok" "" (some (3 / 10)) (some 0) (some 0)
          none).status = "flagged" ∨
        (AnalyzeDict.mk "ok" "" (some (3 / 10)) (some 0) (some 0)
          none).status = "ok") ∧
      ((AnalyzeDict.mk "ok" "" (some (3 / 10)) (some 0) (some 0)
          none).n_rois = some 0 →
        m = 0 ∧ (0 < (22 : ℚ) / 100 →
          ((AnalyzeDict.mk "ok" "" (some (3 / 10)) (some 0) (some 0)
            none).status = "flagged" ↔ (1 : ℚ) / 2 ≤ s))) :=
  C1_theorem (some (2, 2)) (.ok sampleBundle) (.ok []) 40 18 (1 / 2)
    (22 / 100) (2 / 5) _ (by decide) (by decide)

/-! ## Claim C3 -/

/-- Claim C3 is false as stated: on a bundle holding only a score scalar
the score role resolves, yet `load_trufor_outputs` still fails (the code
raises when *either* required role is missing, not only when both are);
the error lists the available keys but does not name the missing role. -/
theorem C3_counterexample :
    finalScore scoreOnlyBundle = some (1 / 2) ∧
    load_trufor_outputs scoreOnlyBundle 2 2 = .error ["score"] := by
  constructor
  · decide
  · decide

/-- Claim C3 (amended): resolving a bundle fails — with an error listing
every key available in the bundle (the raised `KeyError` does not name
which role is missing) — exactly when the score role cannot be resolved
*or* the localization-map role cannot be resolved; absence of a
reliability candidate alone never causes a failure. -/
theorem C3_theorem (bundle : Bundle) (H W : ℕ) :
    ((∃ e, load_trufor_outputs bundle H W = .error e) ↔
      (finalScore bundle = none ∨ pickMapGrid bundle locPrio H W = none)) ∧
    (∀ e, load_trufor_outputs bundle H W = .error e →
      e = bundle.map Prod.fst) ∧
    (finalScore bundle ≠ none → pickMapGrid bundle locPrio H W ≠ none →
      ∃ r, load_trufor_outputs bundle H W = .ok r) := by
  unfold load_trufor_outputs
  cases hs : finalScore bundle with
  | none => simp
  | some v =>
    cases hl : pickMapGrid bundle locPrio H W with
    | none => simp
    | some g => simp

/-- Witness for C3: on a bundle with both required roles, resolution
succeeds. -/
theorem C3_witness : ∃ r, load_trufor_outputs sampleBundle 2 2 = .ok r :=
  (C3_theorem sampleBundle 2 2).2.2 (by decide) (by decide)

/-! ## Claim C5 -/

/-- Claim C5 is false as stated: with a readable image and a bundle that
resolves successfully, an OCR engine failure is *not* treated as zero
regions — the exception propagates out of `analyze_image` and the batch
loop records an `error`-status row for the image, not an `ok`/`flagged`
verdict. -/
theorem C5_counterexample :
    (load_trufor_outputs sampleBundle 2 2).isOk = true ∧
    processImage (some (2, 2)) (.ok sampleBundle) (.error "tesseract failed")
        40 18 (1 / 2) (22 / 100) (2 / 5) =
      ⟨"error", "tesseract failed", false⟩ := by
  constructor
  · decide
  · decide

/-- Claim C5 (amended): for a readable image whose bundle resolves
successfully, an OCR engine failure makes the per-image result an
`error`-status row carrying the engine's message (the exception is caught
at the batch boundary); no `ok`/`flagged` verdict is produced and no
evidence crop is written. -/
theorem C5_theorem (H W : ℕ) (bundle : Bundle) (msg : String)
    (mc : ℚ) (ms : ℤ) (gt rt rm : ℚ) (r : ResolvedOutputs)
    (hres : load_trufor_outputs bundle H W = .ok r) :
    processImage (some (H, W)) (.ok bundle) (.error msg) mc ms gt rt rm =
      ⟨"error", msg, false⟩ := by
  simp only [processImage, analyze_image, hres]

/-- Witness for C5: a concrete resolvable bundle and a failing engine. -/
theorem C5_witness :
    processImage (some (2, 2)) (.ok sampleBundle) (.error "boom")
        40 18 (1 / 2) (22 / 100) (2 / 5) = ⟨"error", "boom", false⟩ :=
  C5_theorem 2 2 sampleBundle "boom" 40 18 (1 / 2) (22 / 100) (2 / 5)
    ⟨3 / 10, [[1, 1], [1, 1]], [[1, 1], [1, 1]]⟩ (by decide)

/-! ## Claim C6 -/

theorem mem_scoreCands {bundle : Bundle} {c : Nat × List ℚ}
    (h : c ∈ scoreCands bundle) :
    ∃ e ∈ bundle, e.2.shape.prod = 1 ∧ c.2 = e.2.data := by
  unfold scoreCands at h
  rcases List.mem_filterMap.mp h with ⟨e, he, hfe⟩
  by_cases hp : e.2.shape.prod = 1
  · rw [if_pos hp] at hfe
    cases hfe
    exact ⟨e, he, hp, rfl⟩
  · rw [if_neg hp] at hfe
    cases hfe

theorem finalScore_from_entry {bundle : Bundle} {v : ℚ}
    (h : finalScore bundle = some v) :
    ∃ e ∈ bundle, e.2.shape.prod = 1 ∧ v = e.2.data.headD 0 := by
  unfold finalScore at h
  cases hps : pickScore bundle with
  | some w =>
    rw [hps] at h
    cases h
    unfold pickScore at hps
    rcases Option.map_eq_some'.mp hps with ⟨c, hc, hval⟩
    rcases mem_scoreCands (chooseBest_mem hc) with ⟨e, he, hp, hdata⟩
    exact ⟨e, he, hp, by rw [← hval, hdata]⟩
  | none =>
    rw [hps] at h
    unfold lastResortScore at h
    rcases Option.map_eq_some'.mp h with ⟨e, he, hval⟩
    have hmem := List.mem_of_find?_eq_some he
    have hpred := List.find?_some he
    simp only [decide_eq_true_eq] at hpred
    exact ⟨e, hmem, hpred, hval.symm⟩

theorem finalScore_of_load_ok {bundle : Bundle} {H W : ℕ}
    {r : ResolvedOutputs} (h : load_trufor_outputs bundle H W = .ok r) :
    finalScore bundle = some r.score := by
  unfold load_trufor_outputs at h
  cases hs : finalScore bundle with
  | none => rw [hs] at h; cases h
  | some v =>
    rw [hs] at h
    cases hl : pickMapGrid bundle locPrio H W with
    | none => rw [hl] at h; cases h
    | some g =>
      rw [hl] at h
      simp only [Except.ok.injEq] at h
      rw [← h]

/-- Claim C6 is false as stated: a successfully resolved bundle whose
scalar entry is 2 yields a resolved global score of 2, outside [0, 1] —
the resolver applies no clamping or normalization to the score. -/
theorem C6_counterexample :
    load_trufor_outputs bigScoreBundle 2 2 =
      .ok ⟨2, [[1, 1], [1, 1]], [[1, 1], [1, 1]]⟩ ∧ ¬((2 : ℚ) ≤ 1) := by
  constructor
  · decide
  · decide

/-- Claim C6 (amended): the resolved global score is taken verbatim from
a size-1 entry of the bundle; it lies in [0, 1] exactly when that entry's
value does — in particular, when every size-1 entry of the bundle holds a
value in [0, 1], the resolved score lies in [0, 1]. -/
theorem C6_theorem (bundle : Bundle) (H W : ℕ) (r : ResolvedOutputs)
    (hwf : ∀ e ∈ bundle, WFArr e.2)
    (hok : load_trufor_outputs bundle H W = .ok r)
    (hvals : ∀ e ∈ bundle, e.2.shape.prod = 1 →
      ∀ v ∈ e.2.data, 0 ≤ v ∧ v ≤ 1) :
    (∃ e ∈ bundle, e.2.shape.prod = 1 ∧ r.score = e.2.data.headD 0) ∧
    0 ≤ r.score ∧ r.score ≤ 1 := by
  have hfs := finalScore_of_load_ok hok
  rcases finalScore_from_entry hfs with ⟨e, he, hp, hval⟩
  refine ⟨⟨e, he, hp, hval⟩, ?_⟩
  have hlen : e.2.data.length = 1 := by
    rw [(hwf e he).1, hp]
  have hhead : e.2.data.headD 0 ∈ e.2.data := by
    cases hd : e.2.data with
    | nil => rw [hd] at hlen; cases hlen
    | cons a as => simp
  have := hvals e he hp _ hhead
  rw [hval]
  exact this

/-- Witness for C6: on a concrete resolvable bundle whose scalar is
3/10, the resolved score is that entry's value and lies in [0, 1]. -/
theorem C6_witness :
    (∃ e ∈ sampleBundle, e.2.shape.prod = 1 ∧
      (ResolvedOutputs.mk (3 / 10) [[1, 1], [1, 1]]
        [[1, 1], [1, 1]]).score = e.2.data.headD 0) ∧
    0 ≤ (ResolvedOutputs.mk (3 / 10) [[1, 1], [1, 1]]
      [[1, 1], [1, 1]]).score ∧
    (ResolvedOutputs.mk (3 / 10) [[1, 1], [1, 1]]
      [[1, 1], [1, 1]]).score ≤ 1 :=
  C6_theorem sampleBundle 2 2
    (ResolvedOutputs.mk (3 / 10) [[1, 1], [1, 1]] [[1, 1], [1, 1]])
    (by decide) (by decide) (by decide)

/-! ## Claim C9 -/

theorem clamp_box_spec (x y w h W H : ℤ) (hW : 1 ≤ W) (hH : 1 ≤ H) :
    0 ≤ (clamp_box x y w h W H).1 ∧ (clamp_box x y w h W H).1 ≤ W - 1 ∧
    0 ≤ (clamp_box x y w h W H).2.1 ∧ (clamp_box x y w h W H).2.1 ≤ H - 1 ∧
    1 ≤ (clamp_box x y w h W H).2.2.1 ∧ 1 ≤ (clamp_box x y w h W H).2.2.2 ∧
    (clamp_box x y w h W H).1 + (clamp_box x y w h W H).2.2.1 ≤ W ∧
    (clamp_box x y w h W H).2.1 + (clamp_box x y w h W H).2.2.2 ≤ H := by
  unfold clamp_box
  dsimp only
  omega

theorem headD_length_of_shape {g : Grid} {H W : ℕ} (hg : HasShape g H W)
    (hH : 1 ≤ H) : (g.headD []).length = W := by
  cases g with
  | nil =>
    exfalso
    rw [← hg.1] at hH
    simp at hH
  | cons r rs => exact hg.2 r (List.mem_cons_self r rs)

theorem cropG_shape {g : Grid} {H W : ℕ} (hg : HasShape g H W)
    {x y w h : ℕ} (hxw : x + w ≤ W) (hyh : y + h ≤ H) :
    HasShape (cropG g x y w h) h w := by
  constructor
  · rw [cropG, List.length_map, List.length_take, List.length_drop, hg.1]
    omega
  · intro row hrow
    rcases List.mem_map.mp hrow with ⟨r, hr, hmap⟩
    have hrmem : r ∈ g := List.mem_of_mem_drop (List.mem_of_mem_take hr)
    rw [← hmap, List.length_take, List.length_drop, hg.2 r hrmem]
    omega

theorem mem_flatG_cropG {g : Grid} {x y w h : ℕ} {v : ℚ}
    (hv : v ∈ flatG (cropG g x y w h)) : v ∈ flatG g := by
  rcases List.mem_flatten.mp hv with ⟨row, hrow, hvr⟩
  rcases List.mem_map.mp hrow with ⟨r, hr, hmap⟩
  rw [← hmap] at hvr
  exact mem_flatG_of_mem (List.mem_of_mem_drop (List.mem_of_mem_take hr))
    (List.mem_of_mem_drop (List.mem_of_mem_take hvr))

theorem mem_zipWith_ex {α β γ : Type} {f : α → β → γ} {a : List α}
    {b : List β} {v : γ} (h : v ∈ List.zipWith f a b) :
    ∃ x ∈ a, ∃ y ∈ b, v = f x y := by
  induction a generalizing b with
  | nil => simp at h
  | cons x xs ih =>
    cases b with
    | nil => simp at h
    | cons y ys =>
      simp only [List.zipWith_cons_cons, List.mem_cons] at h
      rcases h with rfl | h
      · exact ⟨x, List.mem_cons_self x xs, y, List.mem_cons_self y ys, rfl⟩
      · rcases ih h with ⟨x', hx', y', hy', hv⟩
        exact ⟨x', List.mem_cons_of_mem x hx', y',
          List.mem_cons_of_mem y hy', hv⟩

theorem mem_flatG_gridMul {a b : Grid} {v : ℚ}
    (h : v ∈ flatG (gridMul a b)) :
    ∃ x ∈ flatG a, ∃ y ∈ flatG b, v = x * y := by
  rcases List.mem_flatten.mp h with ⟨row, hrow, hvr⟩
  rcases mem_zipWith_ex hrow with ⟨ra, hra, rb, hrb, hrow_eq⟩
  rw [hrow_eq] at hvr
  rcases mem_zipWith_ex hvr with ⟨x, hx, y, hy, hv⟩
  exact ⟨x, mem_flatG_of_mem hra hx, y, mem_flatG_of_mem hrb hy, hv⟩

theorem mem_flatG_gridMap {f : ℚ → ℚ} {g : Grid} {v : ℚ}
    (h : v ∈ flatG (gridMap f g)) : ∃ u ∈ flatG g, v = f u := by
  rcases List.mem_flatten.mp h with ⟨row, hrow, hvr⟩
  rcases List.mem_map.mp hrow with ⟨r, hr, hmap⟩
  rw [← hmap] at hvr
  rcases List.mem_map.mp hvr with ⟨u, hu, hval⟩
  exact ⟨u, mem_flatG_of_mem hr hu, hval.symm⟩

theorem gridMul_shape {a b : Grid} {H W : ℕ} (ha : HasShape a H W)
    (hb : HasShape b H W) : HasShape (gridMul a b) H W := by
  constructor
  · rw [gridMul, List.length_zipWith, ha.1, hb.1, min_self]
  · intro row hrow
    rcases mem_zipWith_ex hrow with ⟨ra, hra, rb, hrb, hrow_eq⟩
    rw [hrow_eq, List.length_zipWith, ha.2 ra hra, hb.2 rb hrb, min_self]

theorem flatG_ne_nil_of_shape {g : Grid} {H W : ℕ} (hg : HasShape g H W)
    (hH : 1 ≤ H) (hW : 1 ≤ W) : flatG g ≠ [] := by
  cases g with
  | nil =>
    exfalso
    rw [← hg.1] at hH
    simp at hH
  | cons r rs =>
    have hrlen : r.length = W := hg.2 r (List.mem_cons_self r rs)
    cases r with
    | nil =>
      exfalso
      rw [← hrlen] at hW
      simp at hW
    | cons v vs =>
      intro hcon
      have : v ∈ flatG ((v :: vs) :: rs) :=
        mem_flatG_of_mem (List.mem_cons_self _ _) (List.mem_cons_self _ _)
      rw [hcon] at this
      exact List.not_mem_nil v this

theorem roi_anomaly_score_eq (loc rel : Grid) (roi : Box) (rel_min : ℚ)
    (x y w h : ℤ)
    (hcb : clamp_box roi.x roi.y roi.w roi.h ((loc.headD []).length : ℤ)
      (loc.length : ℤ) = (x, y, w, h)) :
    roi_anomaly_score loc rel roi rel_min =
      (let l := cropG loc x.toNat y.toNat w.toNat h.toNat
       let r := cropG rel x.toNat y.toNat w.toNat h.toNat
       let m := gridMap (fun v => if rel_min ≤ v then (1 : ℚ) else 0) r
       if meanG m < 15 / 100 then meanG (gridMul l r) * (1 / 4)
       else meanG (gridMul l m)) := by
  unfold roi_anomaly_score
  rw [hcb]

/-- Claim C9 (confirmed): for every image width W ≥ 1 and height H ≥ 1
and every integer input box, the clamped box lies fully inside the image
with strictly positive width and height, so the crop of an H×W map at
the clamped box is a non-empty in-bounds matrix; consequently the means
in the region scorer run over non-empty sets and, when both maps hold
values in [0, 1], the returned region score lies in [0, 1]. -/
theorem C9_theorem (loc rel : Grid) (H W : ℕ) (hH : 1 ≤ H) (hW : 1 ≤ W)
    (hls : HasShape loc H W) (hrs : HasShape rel H W)
    (hlv : ∀ v ∈ flatG loc, 0 ≤ v ∧ v ≤ 1)
    (hrv : ∀ v ∈ flatG rel, 0 ≤ v ∧ v ≤ 1)
    (roi : Box) (rel_min : ℚ) :
    ∃ x y w h : ℤ,
      clamp_box roi.x roi.y roi.w roi.h (W : ℤ) (H : ℤ) = (x, y, w, h) ∧
      0 ≤ x ∧ x ≤ (W : ℤ) - 1 ∧ 0 ≤ y ∧ y ≤ (H : ℤ) - 1 ∧
      1 ≤ w ∧ 1 ≤ h ∧ x + w ≤ (W : ℤ) ∧ y + h ≤ (H : ℤ) ∧
      HasShape (cropG loc x.toNat y.toNat w.toNat h.toNat) h.toNat w.toNat ∧
      cropG loc x.toNat y.toNat w.toNat h.toNat ≠ [] ∧
      0 ≤ roi_anomaly_score loc rel roi rel_min ∧
      roi_anomaly_score loc rel roi rel_min ≤ 1 := by
  have hWZ : (1 : ℤ) ≤ (W : ℤ) := by exact_mod_cast hW
  have hHZ : (1 : ℤ) ≤ (H : ℤ) := by exact_mod_cast hH
  rcases hcb : clamp_box roi.x roi.y roi.w roi.h (W : ℤ) (H : ℤ)
    with ⟨x, y, w, h⟩
  have hspec := clamp_box_spec roi.x roi.y roi.w roi.h (W : ℤ) (H : ℤ) hWZ hHZ
  rw [hcb] at hspec
  dsimp only at hspec
  obtain ⟨h1, h2, h3, h4, h5, h6, h7, h8⟩ := hspec
  have hWd : ((loc.headD []).length : ℤ) = (W : ℤ) := by
    rw [headD_length_of_shape hls hH]
  have hHd : ((loc.length : ℕ) : ℤ) = (H : ℤ) := by rw [hls.1]
  have hcb' : clamp_box roi.x roi.y roi.w roi.h
      ((loc.headD []).length : ℤ) (loc.length : ℤ) = (x, y, w, h) := by
    rw [hWd, hHd]
    exact hcb
  have hxw : x.toNat + w.toNat ≤ W := by omega
  have hyh : y.toNat + h.toNat ≤ H := by omega
  have hw1 : 1 ≤ w.toNat := by omega
  have hh1 : 1 ≤ h.toNat := by omega
  have hlcrop := cropG_shape hls hxw hyh
  have hrcrop := cropG_shape hrs hxw hyh
  set l := cropG loc x.toNat y.toNat w.toNat h.toNat with hl
  set r := cropG rel x.toNat y.toNat w.toNat h.toNat with hr
  set m := gridMap (fun v => if rel_min ≤ v then (1 : ℚ) else 0) r with hm
  have hmshape : HasShape m h.toNat w.toNat := gridMap_shape hrcrop
  have hlv' : ∀ v ∈ flatG l, 0 ≤ v ∧ v ≤ 1 := fun v hv =>
    hlv v (mem_flatG_cropG hv)
  have hrv' : ∀ v ∈ flatG r, 0 ≤ v ∧ v ≤ 1 := fun v hv =>
    hrv v (mem_flatG_cropG hv)
  have hmv : ∀ v ∈ flatG m, 0 ≤ v ∧ v ≤ 1 := by
    intro v hv
    rcases mem_flatG_gridMap hv with ⟨u, _, hval⟩
    rw [hval]
    by_cases hc : rel_min ≤ u
    · rw [if_pos hc]; norm_num
    · rw [if_neg hc]; norm_num
  have hmul_lm : ∀ v ∈ flatG (gridMul l m), 0 ≤ v ∧ v ≤ 1 := by
    intro v hv
    rcases mem_flatG_gridMul hv with ⟨a, ha, b, hb, hval⟩
    rw [hval]
    obtain ⟨ha0, ha1⟩ := hlv' a ha
    obtain ⟨hb0, hb1⟩ := hmv b hb
    exact ⟨mul_nonneg ha0 hb0, mul_le_one₀ ha1 hb0 hb1⟩
  have hmul_lr : ∀ v ∈ flatG (gridMul l r), 0 ≤ v ∧ v ≤ 1 := by
    intro v hv
    rcases mem_flatG_gridMul hv with ⟨a, ha, b, hb, hval⟩
    rw [hval]
    obtain ⟨ha0, ha1⟩ := hlv' a ha
    obtain ⟨hb0, hb1⟩ := hrv' b hb
    exact ⟨mul_nonneg ha0 hb0, mul_le_one₀ ha1 hb0 hb1⟩
  have hlm_ne : flatG (gridMul l m) ≠ [] :=
    flatG_ne_nil_of_shape (gridMul_shape hlcrop hmshape) hh1 hw1
  have hlr_ne : flatG (gridMul l r) ≠ [] :=
    flatG_ne_nil_of_shape (gridMul_shape hlcrop hrcrop) hh1 hw1
  have hmean_lm := meanG_unit hlm_ne hmul_lm
  have hmean_lr := meanG_unit hlr_ne hmul_lr
  have hscore := roi_anomaly_score_eq loc rel roi rel_min x y w h hcb'
  dsimp only at hscore
  rw [← hl, ← hr] at hscore
  rw [← hm] at hscore
  have hbounds : 0 ≤ roi_anomaly_score loc rel roi rel_min ∧
      roi_anomaly_score loc rel roi rel_min ≤ 1 := by
    rw [hscore]
    by_cases hcond : meanG m < 15 / 100
    · rw [if_pos hcond]
      constructor
      · have := hmean_lr.1
        linarith
      · have := hmean_lr.2
        linarith
    · rw [if_neg hcond]
      exact hmean_lm
  have hcrop_ne : l ≠ [] := by
    intro hcon
    have := hlcrop.1
    rw [hcon] at this
    simp at this
    omega
  exact ⟨x, y, w, h, rfl, h1, h2, h3, h4, h5, h6, h7, h8, hlcrop,
    hcrop_ne, hbounds.1, hbounds.2⟩

/-- Witness for C9: concrete 2×2 maps and an oversized out-of-bounds
box. -/
theorem C9_witness :
    ∃ x y w h : ℤ,
      clamp_box (Box.x ⟨-5, -7, 100, 200, "t", 0⟩)
          (Box.y ⟨-5, -7, 100, 200, "t", 0⟩)
          (Box.w ⟨-5, -7, 100, 200, "t", 0⟩)
          (Box.h ⟨-5, -7, 100, 200, "t", 0⟩) (2 : ℤ) (2 : ℤ) =
        (x, y, w, h) ∧
      0 ≤ x ∧ x ≤ (2 : ℤ) - 1 ∧ 0 ≤ y ∧ y ≤ (2 : ℤ) - 1 ∧
      1 ≤ w ∧ 1 ≤ h ∧ x + w ≤ (2 : ℤ) ∧ y + h ≤ (2 : ℤ) ∧
      HasShape (cropG [[0, 1], [1 / 2, 1]] x.toNat y.toNat w.toNat h.toNat)
        h.toNat w.toNat ∧
      cropG [[0, 1], [1 / 2, 1]] x.toNat y.toNat w.toNat h.toNat ≠ [] ∧
      0 ≤ roi_anomaly_score [[0, 1], [1 / 2, 1]] [[1, 1], [0, 1]]
        ⟨-5, -7, 100, 200, "t", 0⟩ (2 / 5) ∧
      roi_anomaly_score [[0, 1], [1 / 2, 1]] [[1, 1], [0, 1]]
        ⟨-5, -7, 100, 200, "t", 0⟩ (2 / 5) ≤ 1 :=
  C9_theorem [[0, 1], [1 / 2, 1]] [[1, 1], [0, 1]] 2 2 (by decide) (by decide)
    (by decide) (by decide) (by decide) (by decide)
    ⟨-5, -7, 100, 200, "t", 0⟩ (2 / 5)

/-! ## Claim C4 -/

theorem strideCol_length (n : ℕ) (d : List ℚ) (c : ℕ) :
    (strideCol n d c).length = c := by
  induction c generalizing d with
  | zero => rfl
  | succ k ih => simp [strideCol, ih]

theorem toRows_shape {w : ℕ} :
    ∀ (h : ℕ) (d : List ℚ), d.length = h * w →
      HasShape (toRows w d h) h w := by
  intro h
  induction h with
  | zero =>
    intro d _
    exact ⟨rfl, by intro row hrow; simp [toRows] at hrow⟩
  | succ k ih =>
    intro d hd
    rw [Nat.succ_mul] at hd
    have hdrop : (d.drop w).length = k * w := by
      rw [List.length_drop]
      omega
    have htail := ih (d.drop w) hdrop
    constructor
    · simp only [toRows, List.length_cons, htail.1]
    · intro row hrow
      simp only [toRows, List.mem_cons] at hrow
      rcases hrow with hrow | hrow
      · rw [hrow, List.length_take]
        omega
      · exact htail.2 row hrow

theorem mapCandFlat_nil {a : NdArray} (hsh : a.shape = []) (H W : ℕ) :
    mapCandFlat a H W = none := by
  unfold mapCandFlat
  rw [hsh]

theorem mapCandFlat_one {a : NdArray} {s1 : ℕ} (hsh : a.shape = [s1])
    (H W : ℕ) : mapCandFlat a H W = none := by
  unfold mapCandFlat
  rw [hsh]

theorem mapCandFlat_two {a : NdArray} {s1 s2 : ℕ} (hsh : a.shape = [s1, s2])
    (H W : ℕ) :
    mapCandFlat a H W =
      if s1 = H ∧ s2 = W then some a.data else none := by
  unfold mapCandFlat
  rw [hsh]

theorem mapCandFlat_three {a : NdArray} {s1 s2 s3 : ℕ}
    (hsh : a.shape = [s1, s2, s3]) (H W : ℕ) :
    mapCandFlat a H W =
      (if s2 = H ∧ s3 = W then
        some (if s1 = 1 then a.data.take (H * W)
              else (a.data.drop ((s1 - 1) * (H * W))).take (H * W))
      else if s1 = H ∧ s2 = W then some (strideCol s3 a.data (H * W))
      else none) := by
  unfold mapCandFlat
  rw [hsh]

theorem mapCandFlat_big {a : NdArray} {s1 s2 s3 s4 : ℕ} {rest : List ℕ}
    (hsh : a.shape = s1 :: s2 :: s3 :: s4 :: rest) (H W : ℕ) :
    mapCandFlat a H W = none := by
  unfold mapCandFlat
  rw [hsh]

theorem mapCandFlat_length {a : NdArray} {H W : ℕ} {flat : List ℚ}
    (hwf : WFArr a) (h : mapCandFlat a H W = some flat) :
    flat.length = H * W := by
  obtain ⟨hlen, hpos⟩ := hwf
  cases hsh : a.shape with
  | nil => rw [mapCandFlat_nil hsh] at h; cases h
  | cons s1 rest =>
    cases rest with
    | nil => rw [mapCandFlat_one hsh] at h; cases h
    | cons s2 rest2 =>
      cases rest2 with
      | nil =>
        rw [mapCandFlat_two hsh] at h
        by_cases hc : s1 = H ∧ s2 = W
        · rw [if_pos hc] at h
          cases h
          rw [hlen, hsh]
          simp [hc.1, hc.2, Nat.mul_comm]
        · rw [if_neg hc] at h
          cases h
      | cons s3 rest3 =>
        cases rest3 with
        | nil =>
          rw [mapCandFlat_three hsh] at h
          have h1pos : 1 ≤ s1 := hpos s1 (by rw [hsh]; simp)
          have hdl : a.data.length = s1 * (s2 * s3) := by
            rw [hlen, hsh]
            simp [List.prod_cons, Nat.mul_assoc]
          by_cases hc : s2 = H ∧ s3 = W
          · rw [if_pos hc] at h
            rw [hc.1, hc.2] at hdl
            by_cases h1 : s1 = 1
            · rw [if_pos h1] at h
              cases h
              rw [List.length_take, hdl, h1]
              simp
            · rw [if_neg h1] at h
              cases h
              rw [List.length_take, List.length_drop, hdl]
              have hsplit : s1 * (H * W) = (s1 - 1) * (H * W) + H * W := by
                have h2 : s1 - 1 + 1 = s1 := by omega
                calc s1 * (H * W) = (s1 - 1 + 1) * (H * W) := by rw [h2]
                  _ = (s1 - 1) * (H * W) + 1 * (H * W) := by rw [Nat.add_mul]
                  _ = (s1 - 1) * (H * W) + H * W := by rw [Nat.one_mul]
              omega
          · rw [if_neg hc] at h
            by_cases hc2 : s1 = H ∧ s2 = W
            · rw [if_pos hc2] at h
              cases h
              exact strideCol_length s3 a.data (H * W)
            · rw [if_neg hc2] at h
              cases h
        | cons s4 rest4 =>
          rw [mapCandFlat_big hsh] at h
          cases h

theorem mem_mapCands {bundle : Bundle} {prio : List String} {H W : ℕ}
    {c : Nat × List ℚ} (h : c ∈ mapCands bundle prio H W) :
    ∃ e ∈ bundle, mapCandFlat e.2 H W = some c.2 := by
  unfold mapCands at h
  rcases List.mem_filterMap.mp h with ⟨e, he, hfe⟩
  rcases Option.map_eq_some'.mp hfe with ⟨flat, hflat, hc⟩
  exact ⟨e, he, by rw [hflat, ← hc]⟩

theorem pickMapGrid_shape {bundle : Bundle} {prio : List String} {H W : ℕ}
    {g : Grid} (hwf : ∀ e ∈ bundle, WFArr e.2)
    (h : pickMapGrid bundle prio H W = some g) : HasShape g H W := by
  unfold pickMapGrid at h
  rcases Option.map_eq_some'.mp h with ⟨c, hc, hg⟩
  rcases mem_mapCands (chooseBest_mem hc) with ⟨e, he, hflat⟩
  have hlen := mapCandFlat_length (hwf e he) hflat
  rw [← hg]
  exact toRows_shape H c.2 (by rw [hlen, Nat.mul_comm])

theorem HasShape_onesGrid (H W : ℕ) : HasShape (onesGrid H W) H W := by
  constructor
  · simp [onesGrid]
  · intro row hrow
    rw [List.eq_of_mem_replicate hrow]
    simp

/-- Claim C4 (confirmed): for every valid image size (H ≥ 1, W ≥ 1) and
every bundle of wellformed arrays holding at least one size-1 entry and
at least one entry shape-compatible with an H×W localization map,
resolution succeeds and both returned maps are proper H×W matrices; and
when the bundle yields no reliability candidate the returned reliability
map is the all-ones H×W map.  (With the shape filter shared between the
two map roles, a successful resolution in fact always finds a
reliability candidate, so the all-ones default is vacuous here.) -/
theorem C4_theorem (H W : ℕ) (hH : 1 ≤ H) (hW : 1 ≤ W) (bundle : Bundle)
    (hwf : ∀ e ∈ bundle, WFArr e.2)
    (hsc : ∃ e ∈ bundle, e.2.shape.prod = 1)
    (hloc : ∃ e ∈ bundle, mapCandFlat e.2 H W ≠ none) :
    ∃ r, load_trufor_outputs bundle H W = .ok r ∧
      HasShape r.loc H W ∧ HasShape r.rel H W ∧
      (pickMapGrid bundle relPrio H W = none → r.rel = onesGrid H W) := by
  rcases hsc with ⟨es, hes, hps⟩
  rcases hloc with ⟨el, hel, hpl⟩
  have hscand : (rankOf scorePrio es.1, es.2.data) ∈ scoreCands bundle := by
    unfold scoreCands
    exact List.mem_filterMap.mpr ⟨es, hes, by rw [if_pos hps]⟩
  have hscne : scoreCands bundle ≠ [] := by
    intro hcon
    rw [hcon] at hscand
    exact List.not_mem_nil _ hscand
  rcases chooseBest_ne_none hscne with ⟨cs, hcs⟩
  have hfs : finalScore bundle = some (cs.2.headD 0) := by
    unfold finalScore pickScore
    rw [hcs]
    rfl
  rcases hflat : mapCandFlat el.2 H W with _ | flat
  · exact absurd hflat hpl
  have hlcand : (rankOf locPrio el.1, flat) ∈ mapCands bundle locPrio H W := by
    unfold mapCands
    exact List.mem_filterMap.mpr ⟨el, hel, by rw [hflat]; rfl⟩
  have hlcne : mapCands bundle locPrio H W ≠ [] := by
    intro hcon
    rw [hcon] at hlcand
    exact List.not_mem_nil _ hlcand
  rcases chooseBest_ne_none hlcne with ⟨cl, hcl⟩
  have hpg : pickMapGrid bundle locPrio H W = some (toRows W cl.2 H) := by
    unfold pickMapGrid
    rw [hcl]
    rfl
  have hlshape : HasShape (toRows W cl.2 H) H W := pickMapGrid_shape hwf hpg
  cases hrelc : chooseBest (mapCands bundle relPrio H W) with
  | none =>
    have hrel : pickMapGrid bundle relPrio H W = none := by
      unfold pickMapGrid
      rw [hrelc]
      rfl
    refine ⟨⟨cs.2.headD 0, norm01 (toRows W cl.2 H),
      norm01 (onesGrid H W)⟩, ?_, ?_, ?_, ?_⟩
    · unfold load_trufor_outputs
      rw [hfs, hpg, hrel]
    · exact norm01_shape hlshape
    · exact norm01_shape (HasShape_onesGrid H W)
    · intro _
      exact norm01_onesGrid hH hW
  | some cr =>
    have hrel : pickMapGrid bundle relPrio H W = some (toRows W cr.2 H) := by
      unfold pickMapGrid
      rw [hrelc]
      rfl
    refine ⟨⟨cs.2.headD 0, norm01 (toRows W cl.2 H),
      norm01 (toRows W cr.2 H)⟩, ?_, ?_, ?_, ?_⟩
    · unfold load_trufor_outputs
      rw [hfs, hpg, hrel]
    · exact norm01_shape hlshape
    · exact norm01_shape (pickMapGrid_shape hwf hrel)
    · intro hcon
      rw [hcon] at hrel
      cases hrel

/-- Witness for C4: a concrete wellformed bundle with a scalar and a
2×2 map resolves to maps of shape (2, 2). -/
theorem C4_witness :
    ∃ r, load_trufor_outputs sampleBundle 2 2 = .ok r ∧
      HasShape r.loc 2 2 ∧ HasShape r.rel 2 2 ∧
      (pickMapGrid sampleBundle relPrio 2 2 = none →
        r.rel = onesGrid 2 2) :=
  C4_theorem 2 2 (by decide) (by decide) sampleBundle (by decide)
    (by decide) (by decide)

/-! ## Claim C10 -/

theorem bestFold_go (l : List (Box × ℚ)) :
    ∀ (m0 : ℚ) (b0 : Option Box),
      (l.foldl (fun acc p => if acc.1 < p.2 then (p.2, some p.1) else acc)
          (m0, b0) = (m0, b0) ∧ ∀ p ∈ l, p.2 ≤ m0) ∨
      (∃ box l1 l2,
        l = l1 ++ (box,
          (l.foldl (fun acc p => if acc.1 < p.2 then (p.2, some p.1)
            else acc) (m0, b0)).1) :: l2 ∧
        (l.foldl (fun acc p => if acc.1 < p.2 then (p.2, some p.1) else acc)
          (m0, b0)).2 = some box ∧
        m0 < (l.foldl (fun acc p => if acc.1 < p.2 then (p.2, some p.1)
          else acc) (m0, b0)).1 ∧
        (∀ p ∈ l1, p.2 < (l.foldl (fun acc p =>
          if acc.1 < p.2 then (p.2, some p.1) else acc) (m0, b0)).1) ∧
        (∀ p ∈ l2, p.2 ≤ (l.foldl (fun acc p =>
          if acc.1 < p.2 then (p.2, some p.1) else acc) (m0, b0)).1)) := by
  induction l with
  | nil =>
    intro m0 b0
    left
    exact ⟨rfl, by intro p hp; simp at hp⟩
  | cons p ps ih =>
    intro m0 b0
    rw [List.foldl_cons]
    by_cases hlt : m0 < p.2
    · rw [if_pos hlt]
      rcases ih p.2 (some p.1) with ⟨heq, hbound⟩ | ⟨box, l1, l2, hsplit, hsome, hm, hl1, hl2⟩
      · right
        refine ⟨p.1, [], ps, ?_, ?_, ?_, ?_, ?_⟩
        · rw [heq]
          simp
        · rw [heq]
        · rw [heq]
          exact hlt
        · intro q hq
          simp at hq
        · intro q hq
          rw [heq]
          exact hbound q hq
      · right
        refine ⟨box, p :: l1, l2, ?_, hsome, lt_trans hlt hm, ?_, hl2⟩
        · rw [List.cons_append, ← hsplit]
        · intro q hq
          rcases List.mem_cons.mp hq with hq | hq
          · rw [hq]
            exact hm
          · exact hl1 q hq
    · rw [if_neg hlt]
      rcases ih m0 b0 with ⟨heq, hbound⟩ | ⟨box, l1, l2, hsplit, hsome, hm, hl1, hl2⟩
      · left
        refine ⟨heq, ?_⟩
        intro q hq
        rcases List.mem_cons.mp hq with hq | hq
        · rw [hq]
          exact le_of_not_lt hlt
        · exact hbound q hq
      · right
        refine ⟨box, p :: l1, l2, ?_, hsome, hm, ?_, hl2⟩
        · rw [List.cons_append, ← hsplit]
        · intro q hq
          rcases List.mem_cons.mp hq with hq | hq
          · rw [hq]
            exact lt_of_le_of_lt (le_of_not_lt hlt) hm
          · exact hl1 q hq

theorem bestFold_none_iff (scored : List (Box × ℚ)) :
    (bestFold scored).2 = none ↔ ∀ p ∈ scored, p.2 ≤ 0 := by
  unfold bestFold
  rcases bestFold_go scored 0 none with ⟨heq, hbound⟩ | ⟨box, l1, l2, hsplit, hsome, hm, hl1, hl2⟩
  · constructor
    · intro _
      exact hbound
    · intro _
      rw [heq]
  · constructor
    · intro hnone
      rw [hsome] at hnone
      cases hnone
    · intro hall
      exfalso
      set M := (scored.foldl (fun acc p =>
        if acc.1 < p.2 then (p.2, some p.1) else acc) (0, none)).1 with hM
      have hmem : (box, M) ∈ scored := by
        rw [hsplit]
        simp
      have := hall _ hmem
      simp only at this
      linarith

theorem bestFold_some (scored : List (Box × ℚ)) (box : Box)
    (h : (bestFold scored).2 = some box) :
    0 < (bestFold scored).1 ∧
    ∃ l1 l2, scored = l1 ++ (box, (bestFold scored).1) :: l2 ∧
      (∀ p ∈ l1, p.2 < (bestFold scored).1) ∧
      (∀ p ∈ l2, p.2 ≤ (bestFold scored).1) := by
  unfold bestFold at h ⊢
  rcases bestFold_go scored 0 none with ⟨heq, _⟩ | ⟨box', l1, l2, hsplit, hsome, hm, hl1, hl2⟩
  · rw [heq] at h
    cases h
  · rw [hsome] at h
    cases h
    exact ⟨hm, l1, l2, hsplit, hl1, hl2⟩

/-- Claim C10 (confirmed): the best region returned by an analysis is
the earliest region attaining the running maximum — its score is
positive, strictly exceeds every earlier region's score, and is at least
every later region's score (so on a tie at the maximum the earlier
region is chosen); the best region is absent exactly when every region
scores at most 0 (in particular when all score exactly 0); an error-free
analysis reports exactly the fold's maximum and best region; and `main`
writes an evidence crop only for a `flagged` result that carries a best
region — never when the best region is absent, however the image was
flagged. -/
theorem C10_theorem :
    (∀ scored : List (Box × ℚ),
      ((bestFold scored).2 = none ↔ ∀ p ∈ scored, p.2 ≤ 0) ∧
      (∀ box, (bestFold scored).2 = some box →
        0 < (bestFold scored).1 ∧
        ∃ l1 l2, scored = l1 ++ (box, (bestFold scored).1) :: l2 ∧
          (∀ p ∈ l1, p.2 < (bestFold scored).1) ∧
          (∀ p ∈ l2, p.2 ≤ (bestFold scored).1))) ∧
    (∀ imgDims tf oc (mc : ℚ) (ms : ℤ) (gt rt rm : ℚ) d,
      analyze_image imgDims tf oc mc ms gt rt rm = .ok d →
      d.status ≠ "error" →
      ∃ H W bundle tokens outs, imgDims = some (H, W) ∧
        tf = .ok bundle ∧ oc = .ok tokens ∧
        load_trufor_outputs bundle H W = .ok outs ∧
        d.best_roi =
          (bestFold (scoreRegions outs (ocr_line_boxes tokens mc ms) rm)).2 ∧
        d.max_roi_score = some
          (bestFold (scoreRegions outs (ocr_line_boxes tokens mc ms) rm)).1) ∧
    (∀ imgDims tf oc (mc : ℚ) (ms : ℤ) (gt rt rm : ℚ),
      (processImage imgDims tf oc mc ms gt rt rm).crop_written = true →
      ∃ d, analyze_image imgDims tf oc mc ms gt rt rm = .ok d ∧
        d.status = "flagged" ∧ d.best_roi.isSome = true) ∧
    (∀ imgDims tf oc (mc : ℚ) (ms : ℤ) (gt rt rm : ℚ) d,
      analyze_image imgDims tf oc mc ms gt rt rm = .ok d →
      d.best_roi = none →
      (processImage imgDims tf oc mc ms gt rt rm).crop_written = false) := by
  refine ⟨fun scored => ⟨bestFold_none_iff scored, bestFold_some scored⟩,
    ?_, ?_, ?_⟩
  · intro imgDims tf oc mc ms gt rt rm d hok hne
    cases imgDims with
    | none =>
      simp only [analyze_image, Except.ok.injEq] at hok
      rw [← hok] at hne
      exact absurd rfl hne
    | some hw =>
      obtain ⟨H, W⟩ := hw
      cases tf with
      | error e => simp [analyze_image] at hok
      | ok bundle =>
        cases hload : load_trufor_outputs bundle H W with
        | error ks => simp [analyze_image, hload] at hok
        | ok outs =>
          cases oc with
          | error e => simp [analyze_image, hload] at hok
          | ok tokens =>
            simp only [analyze_image, hload, Except.ok.injEq] at hok
            subst hok
            exact ⟨H, W, bundle, tokens, outs, rfl, rfl, rfl, hload,
              rfl, rfl⟩
  · intro imgDims tf oc mc ms gt rt rm hcw
    unfold processImage at hcw
    cases hana : analyze_image imgDims tf oc mc ms gt rt rm with
    | error e =>
      rw [hana] at hcw
      simp at hcw
    | ok d =>
      rw [hana] at hcw
      simp only [Bool.and_eq_true, beq_iff_eq] at hcw
      exact ⟨d, rfl, hcw.1, hcw.2⟩
  · intro imgDims tf oc mc ms gt rt rm d hok hnone
    unfold processImage
    rw [hok]
    simp [hnone]

/-- Witness for C10: two regions both scoring 0 yield no best region,
and a run flagged by its global score with every region scoring 0
writes no evidence crop. -/
theorem C10_witness :
    (bestFold [(⟨0, 0, 70, 20, "7h 35m", 90⟩, 0), (⟨5, 30, 70, 20, "1h 2m", 90⟩, 0)]).2 = none ∧
    (processImage (some (2, 2)) (.ok zeroMapBundle) (.ok [bigTok])
      40 18 (1 / 2) (22 / 100) (2 / 5)).crop_written = false := by
  constructor
  · exact (C10_theorem.1 [(⟨0, 0, 70, 20, "7h 35m", 90⟩, 0), (⟨5, 30, 70, 20, "1h 2m", 90⟩, 0)]).1.mpr (by decide)
  · exact C10_theorem.2.2.2 (some (2, 2)) (.ok zeroMapBundle)
      (.ok [bigTok]) 40 18 (1 / 2) (22 / 100) (2 / 5)
      ⟨"flagged", "", some (7 / 10), some 0, some 1, none⟩
      (by decide) (by decide)

/-! ## Claim C7 -/

theorem strEq_of_data {s t : String} (h : s.data = t.data) : s = t := by
  cases s
  cases t
  congr

theorem data_strip (s : String) : (strip s).data = stripChars s.data := rfl

theorem length_dropWhile_le (p : Char → Bool) (l : List Char) :
    (l.dropWhile p).length ≤ l.length := by
  induction l with
  | nil => simp
  | cons a as ih =>
    rw [List.dropWhile_cons]
    by_cases h : p a
    · simp only [if_pos h]
      simp only [List.length_cons]
      omega
    · simp [if_neg h]

theorem length_dropWhile_lt {p : Char → Bool} {a : Char} {as : List Char}
    (h : p a = true) :
    ((a :: as).dropWhile p).length < (a :: as).length := by
  rw [List.dropWhile_cons, if_pos h]
  have := length_dropWhile_le p as
  simp only [List.length_cons]
  omega

theorem stripChars_length_le (l : List Char) :
    (stripChars l).length ≤ l.length := by
  unfold stripChars
  rw [List.length_reverse]
  calc ((l.dropWhile Char.isWhitespace).reverse.dropWhile
        Char.isWhitespace).length
      ≤ (l.dropWhile Char.isWhitespace).reverse.length :=
        length_dropWhile_le _ _
    _ = (l.dropWhile Char.isWhitespace).length := List.length_reverse _
    _ ≤ l.length := length_dropWhile_le _ _

theorem head_not_ws_of_strip_self {l : List Char} (h : stripChars l = l) :
    ∀ c, l.head? = some c → ¬ c.isWhitespace = true := by
  intro c hc hws
  cases l with
  | nil => cases hc
  | cons a as =>
    have hac : a = c := by
      simp only [List.head?_cons, Option.some.injEq] at hc
      exact hc
    subst hac
    have hlt : ((a :: as).dropWhile Char.isWhitespace).length <
        (a :: as).length := length_dropWhile_lt hws
    have hle : (stripChars (a :: as)).length ≤
        ((a :: as).dropWhile Char.isWhitespace).length := by
      unfold stripChars
      rw [List.length_reverse]
      calc (((a :: as).dropWhile Char.isWhitespace).reverse.dropWhile
            Char.isWhitespace).length
          ≤ ((a :: as).dropWhile Char.isWhitespace).reverse.length :=
            length_dropWhile_le _ _
        _ = ((a :: as).dropWhile Char.isWhitespace).length :=
            List.length_reverse _
    rw [h] at hle
    omega

theorem last_not_ws_of_strip_self {l : List Char} (h : stripChars l = l) :
    ∀ c, l.getLast? = some c → ¬ c.isWhitespace = true := by
  intro c hc hws
  have hhead : ∀ c', l.head? = some c' → ¬ c'.isWhitespace = true :=
    head_not_ws_of_strip_self h
  have hd1 : l.dropWhile Char.isWhitespace = l := by
    cases l with
    | nil => rfl
    | cons a as =>
      rw [List.dropWhile_cons, if_neg (hhead a rfl)]
  have hrev : l.reverse.head? = some c := by
    rw [List.getLast?_eq_head?_reverse] at hc
    exact hc
  cases hrl : l.reverse with
  | nil =>
    rw [hrl] at hrev
    cases hrev
  | cons b bs =>
    have hbc : b = c := by
      rw [hrl] at hrev
      simp only [List.head?_cons, Option.some.injEq] at hrev
      exact hrev
    subst hbc
    have hlt : (l.reverse.dropWhile Char.isWhitespace).length <
        l.reverse.length := by
      rw [hrl]
      exact length_dropWhile_lt hws
    have heq : (stripChars l).length =
        (l.reverse.dropWhile Char.isWhitespace).length := by
      unfold stripChars
      rw [hd1, List.length_reverse]
    rw [h] at heq
    rw [List.length_reverse] at hlt
    omega

theorem stripChars_eq_self {l : List Char}
    (hhead : ∀ c, l.head? = some c → ¬ c.isWhitespace = true)
    (hlast : ∀ c, l.getLast? = some c → ¬ c.isWhitespace = true) :
    stripChars l = l := by
  unfold stripChars
  have h1 : l.dropWhile Char.isWhitespace = l := by
    cases l with
    | nil => rfl
    | cons a as => rw [List.dropWhile_cons, if_neg (hhead a rfl)]
  rw [h1]
  have h2 : l.reverse.dropWhile Char.isWhitespace = l.reverse := by
    cases hrl : l.reverse with
    | nil => rfl
    | cons b bs =>
      rw [List.dropWhile_cons, if_neg, ← hrl]
      apply hlast
      rw [List.getLast?_eq_head?_reverse, hrl]
      rfl
  rw [h2, List.reverse_reverse]

theorem joinWords_data_ne_nil : ∀ (ws : List String), ws ≠ [] →
    (∀ w ∈ ws, w.data ≠ []) → (joinWords ws).data ≠ [] := by
  intro ws
  cases ws with
  | nil => intro h; exact absurd rfl h
  | cons w rest =>
    intro _ hall
    cases rest with
    | nil => exact hall w (List.mem_cons_self w [])
    | cons u us =>
      show (w ++ " " ++ joinWords (u :: us)).data ≠ []
      rw [String.data_append, String.data_append]
      intro hcon
      rcases List.append_eq_nil.mp hcon with ⟨h1, _⟩
      rcases List.append_eq_nil.mp h1 with ⟨h2, _⟩
      exact hall w (List.mem_cons_self w _) h2

theorem joinWords_head? (w : String) (ws : List String) (hw : w.data ≠ []) :
    (joinWords (w :: ws)).data.head? = w.data.head? := by
  cases ws with
  | nil => rfl
  | cons u us =>
    show (w ++ " " ++ joinWords (u :: us)).data.head? = w.data.head?
    rw [String.data_append, String.data_append]
    cases hd : w.data with
    | nil => exact absurd hd hw
    | cons a as => simp

theorem joinWords_getLast? : ∀ (ws : List String), ws ≠ [] →
    (∀ w ∈ ws, w.data ≠ []) →
    ∃ w ∈ ws, (joinWords ws).data.getLast? = w.data.getLast? := by
  intro ws
  induction ws with
  | nil => intro h; exact absurd rfl h
  | cons w rest ih =>
    intro _ hall
    cases rest with
    | nil => exact ⟨w, List.mem_cons_self w [], rfl⟩
    | cons u us =>
      rcases ih (by simp) (fun w' hw' => hall w' (List.mem_cons_of_mem w hw'))
        with ⟨w', hw', hlast⟩
      refine ⟨w', List.mem_cons_of_mem w hw', ?_⟩
      show (w ++ " " ++ joinWords (u :: us)).data.getLast? = _
      rw [String.data_append, String.data_append]
      have hjne : (joinWords (u :: us)).data ≠ [] :=
        joinWords_data_ne_nil (u :: us) (by simp)
          (fun w'' hw'' => hall w'' (List.mem_cons_of_mem w hw''))
      rw [List.getLast?_append_of_ne_nil _ hjne]
      exact hlast

theorem joinWords_strip_fix {ws : List String} (hne : ws ≠ [])
    (hall : ∀ w ∈ ws, strip w = w ∧ w ≠ "") :
    strip (joinWords ws) = joinWords ws := by
  have hdata : ∀ w ∈ ws, w.data ≠ [] := by
    intro w hw hcon
    apply (hall w hw).2
    apply strEq_of_data
    rw [hcon]
  apply strEq_of_data
  rw [data_strip]
  apply stripChars_eq_self
  · cases ws with
    | nil => exact absurd rfl hne
    | cons w rest =>
      intro c hc
      rw [joinWords_head? w rest (hdata w (List.mem_cons_self w rest))] at hc
      have hsc : stripChars w.data = w.data := by
        have hs := (hall w (List.mem_cons_self w rest)).1
        calc stripChars w.data = (strip w).data := rfl
          _ = w.data := by rw [hs]
      exact head_not_ws_of_strip_self hsc c hc
  · intro c hc
    rcases joinWords_getLast? ws hne hdata with ⟨w', hw', hlast⟩
    rw [hlast] at hc
    have hsc : stripChars w'.data = w'.data := by
      have hs := (hall w' hw').1
      calc stripChars w'.data = (strip w').data := rfl
        _ = w'.data := by rw [hs]
    exact last_not_ws_of_strip_self hsc c hc

theorem hasDigit_joinWords : ∀ (ws : List String) (w : String), w ∈ ws →
    hasDigit w = true → hasDigit (joinWords ws) = true := by
  intro ws
  induction ws with
  | nil => intro w hw; cases hw
  | cons x rest ih =>
    intro w hw hd
    cases rest with
    | nil =>
      have : w = x := List.mem_singleton.mp hw
      rw [← this]
      exact hd
    | cons u us =>
      show hasDigit (x ++ " " ++ joinWords (u :: us)) = true
      unfold hasDigit
      rw [String.data_append, String.data_append]
      simp only [List.any_append, Bool.or_eq_true]
      rcases List.mem_cons.mp hw with hwx | hw'
      · left
        left
        rw [← hwx]
        exact hd
      · right
        exact ih w hw' hd

theorem tokenStep_pass (mc : ℚ) (ms : ℤ) (t : OcrToken)
    (hst : strip t.text = t.text) (hne : t.text ≠ "")
    (hconf : mc ≤ t.conf.getD (-1)) (hw : ms ≤ t.width)
    (hh : ms ≤ t.height) (lines : List (LineKey × LineAcc)) :
    tokenStep mc ms lines t =
      updateLines lines (tkey t) t.left t.top t.width t.height t.text
        (t.conf.getD (-1)) := by
  unfold tokenStep
  dsimp only
  rw [hst, if_neg hne, if_neg (not_lt.mpr hconf),
    if_neg (not_or.mpr ⟨not_lt.mpr hw, not_lt.mpr hh⟩)]

theorem updateLines_nil (K : LineKey) (x y w h : ℤ) (txt : String)
    (conf : ℚ) :
    updateLines [] K x y w h txt conf =
      [(K, ⟨x, y, x + w, y + h, [txt], conf, 1⟩)] := rfl

theorem updateLines_single (K : LineKey) (d : LineAcc) (x y w h : ℤ)
    (txt : String) (conf : ℚ) :
    updateLines [(K, d)] K x y w h txt conf =
      [(K, mergeAcc d x y w h txt conf)] := by
  unfold updateLines
  rw [if_pos rfl]

theorem foldl_tokenStep_single (mc : ℚ) (ms : ℤ) (K : LineKey) :
    ∀ (ts : List OcrToken) (d : LineAcc),
      (∀ t ∈ ts, tkey t = K ∧ strip t.text = t.text ∧ t.text ≠ "" ∧
        mc ≤ t.conf.getD (-1) ∧ ms ≤ t.width ∧ ms ≤ t.height) →
      ts.foldl (tokenStep mc ms) [(K, d)] =
        [(K, ts.foldl (fun acc t => mergeAcc acc t.left t.top t.width
          t.height t.text (t.conf.getD (-1))) d)] := by
  intro ts
  induction ts with
  | nil => intro d _; rfl
  | cons t ts ih =>
    intro d hall
    obtain ⟨hk, hst, hne, hconf, hw, hh⟩ :=
      hall t (List.mem_cons_self t ts)
    rw [List.foldl_cons, tokenStep_pass mc ms t hst hne hconf hw hh, hk,
      updateLines_single, List.foldl_cons]
    exact ih _ fun t' ht' => hall t' (List.mem_cons_of_mem t ht')

theorem mergeFold_words : ∀ (ts : List OcrToken) (d : LineAcc),
    (ts.foldl (fun acc t => mergeAcc acc t.left t.top t.width t.height
      t.text (t.conf.getD (-1))) d).words =
      d.words ++ ts.map OcrToken.text := by
  intro ts
  induction ts with
  | nil => intro d; simp
  | cons t ts ih =>
    intro d
    rw [List.foldl_cons, ih]
    simp [mergeAcc]

theorem mergeFold_span : ∀ (ts : List OcrToken) (d : LineAcc),
    d.x2 - d.x1 ≤
      (ts.foldl (fun acc t => mergeAcc acc t.left t.top t.width t.height
        t.text (t.conf.getD (-1))) d).x2 -
      (ts.foldl (fun acc t => mergeAcc acc t.left t.top t.width t.height
        t.text (t.conf.getD (-1))) d).x1 ∧
    d.y2 - d.y1 ≤
      (ts.foldl (fun acc t => mergeAcc acc t.left t.top t.width t.height
        t.text (t.conf.getD (-1))) d).y2 -
      (ts.foldl (fun acc t => mergeAcc acc t.left t.top t.width t.height
        t.text (t.conf.getD (-1))) d).y1 := by
  intro ts
  induction ts with
  | nil => intro d; exact ⟨le_refl _, le_refl _⟩
  | cons t ts ih =>
    intro d
    rw [List.foldl_cons]
    have hstep := ih (mergeAcc d t.left t.top t.width t.height t.text
      (t.conf.getD (-1)))
    have hx : d.x2 - d.x1 ≤
        (mergeAcc d t.left t.top t.width t.height t.text
          (t.conf.getD (-1))).x2 -
        (mergeAcc d t.left t.top t.width t.height t.text
          (t.conf.getD (-1))).x1 := by
      unfold mergeAcc
      dsimp only
      omega
    have hy : d.y2 - d.y1 ≤
        (mergeAcc d t.left t.top t.width t.height t.text
          (t.conf.getD (-1))).y2 -
        (mergeAcc d t.left t.top t.width t.height t.text
          (t.conf.getD (-1))).y1 := by
      unfold mergeAcc
      dsimp only
      omega
    exact ⟨le_trans hx hstep.1, le_trans hy hstep.2⟩

/-- Claim C7 is false as stated: two digit-bearing tokens on one line
passing the confidence filter (conf 90 ≥ 40) but whose 5×5 boxes fall
below the default 18-pixel size minimum produce no region at all, not
exactly one. -/
theorem C7_counterexample :
    ocr_line_boxes [⟨"7h", some 90, 0, 0, 5, 5, 1, 1, 1⟩,
      ⟨"35m", some 90, 10, 0, 5, 5, 1, 1, 1⟩] 40 18 = [] ∧
    (40 : ℚ) ≤ 90 ∧ hasDigit "7h" = true ∧ hasDigit "35m" = true := by
  refine ⟨?_, ?_, ?_, ?_⟩
  · decide
  · decide
  · decide
  · decide

/-- Claim C7 (amended): region extraction produces no region for a line
whose merged text contains no digit (every extracted region's text bears
a digit); and a single line of digit-bearing tokens that pass the
confidence filter *and whose boxes meet the minimum size* produces
exactly one region whose text is the space-joined concatenation of the
member tokens' texts in encounter order. -/
theorem C7_theorem (tokens : List OcrToken) (mc : ℚ) (ms : ℤ) :
    (∀ b ∈ ocr_line_boxes tokens mc ms, hasDigit b.text = true) ∧
    (∀ K : LineKey, tokens ≠ [] →
      (∀ t ∈ tokens, tkey t = K ∧ strip t.text = t.text ∧ t.text ≠ "" ∧
        mc ≤ t.conf.getD (-1) ∧ ms ≤ t.width ∧ ms ≤ t.height) →
      (∃ t ∈ tokens, hasDigit t.text = true) →
      ∃ b, ocr_line_boxes tokens mc ms = [b] ∧
        b.text = joinWords (tokens.map OcrToken.text)) := by
  constructor
  · intro b hb
    unfold ocr_line_boxes at hb
    rcases List.mem_filterMap.mp hb with ⟨kd, _, hbuild⟩
    unfold buildBox at hbuild
    dsimp only at hbuild
    by_cases hd : hasDigit (strip (joinWords kd.2.words)) = true
    · rw [if_pos hd] at hbuild
      by_cases hsz : kd.2.x2 - kd.2.x1 < ms ∨ kd.2.y2 - kd.2.y1 < ms
      · rw [if_pos hsz] at hbuild
        cases hbuild
      · rw [if_neg hsz] at hbuild
        cases hbuild
        exact hd
    · rw [if_neg hd] at hbuild
      cases hbuild
  · intro K hne hall hdig
    cases tokens with
    | nil => exact absurd rfl hne
    | cons t0 ts =>
      obtain ⟨hk0, hst0, hne0, hconf0, hw0, hh0⟩ :=
        hall t0 (List.mem_cons_self t0 ts)
      have hstep0 : tokenStep mc ms [] t0 =
          [(K, ⟨t0.left, t0.top, t0.left + t0.width, t0.top + t0.height,
            [t0.text], t0.conf.getD (-1), 1⟩)] := by
        rw [tokenStep_pass mc ms t0 hst0 hne0 hconf0 hw0 hh0, hk0,
          updateLines_nil]
      have hfold : (t0 :: ts).foldl (tokenStep mc ms) [] =
          [(K, ts.foldl (fun acc t => mergeAcc acc t.left t.top t.width
            t.height t.text (t.conf.getD (-1)))
            ⟨t0.left, t0.top, t0.left + t0.width, t0.top + t0.height,
              [t0.text], t0.conf.getD (-1), 1⟩)] := by
        rw [List.foldl_cons, hstep0]
        exact foldl_tokenStep_single mc ms K ts _
          fun t' ht' => hall t' (List.mem_cons_of_mem t0 ht')
      set D := ts.foldl (fun acc t => mergeAcc acc t.left t.top t.width
        t.height t.text (t.conf.getD (-1)))
        (⟨t0.left, t0.top, t0.left + t0.width, t0.top + t0.height,
          [t0.text], t0.conf.getD (-1), 1⟩ : LineAcc) with hD
      have hwords : D.words = (t0 :: ts).map OcrToken.text := by
        rw [hD, mergeFold_words]
        simp
      have hallw : ∀ w ∈ D.words, strip w = w ∧ w ≠ "" := by
        rw [hwords]
        intro w hw
        rcases List.mem_map.mp hw with ⟨t, ht, htxt⟩
        obtain ⟨_, hst, hne', _, _, _⟩ := hall t ht
        rw [← htxt]
        exact ⟨hst, hne'⟩
      have hwne : D.words ≠ [] := by
        rw [hwords]
        simp
      have htext_fix : strip (joinWords D.words) = joinWords D.words :=
        joinWords_strip_fix hwne hallw
      have hdigit : hasDigit (strip (joinWords D.words)) = true := by
        rw [htext_fix]
        rcases hdig with ⟨t, ht, htd⟩
        apply hasDigit_joinWords D.words t.text
        · rw [hwords]
          exact List.mem_map.mpr ⟨t, ht, rfl⟩
        · exact htd
      have hspan := mergeFold_span ts
        (⟨t0.left, t0.top, t0.left + t0.width, t0.top + t0.height,
          [t0.text], t0.conf.getD (-1), 1⟩ : LineAcc)
      have hxspan : ms ≤ D.x2 - D.x1 := by
        rw [hD]
        refine le_trans ?_ hspan.1
        dsimp only
        omega
      have hyspan : ms ≤ D.y2 - D.y1 := by
        rw [hD]
        refine le_trans ?_ hspan.2
        dsimp only
        omega
      have hbuild : buildBox ms D = some ⟨D.x1, D.y1, D.x2 - D.x1,
          D.y2 - D.y1, strip (joinWords D.words),
          D.conf_sum / ((max 1 D.conf_n : ℕ) : ℚ)⟩ := by
        unfold buildBox
        dsimp only
        rw [if_pos hdigit,
          if_neg (not_or.mpr ⟨not_lt.mpr hxspan, not_lt.mpr hyspan⟩)]
      refine ⟨⟨D.x1, D.y1, D.x2 - D.x1, D.y2 - D.y1,
        strip (joinWords D.words),
        D.conf_sum / ((max 1 D.conf_n : ℕ) : ℚ)⟩, ?_, ?_⟩
      · unfold ocr_line_boxes
        rw [hfold]
        simp only [List.filterMap_cons, List.filterMap_nil]
        rw [hbuild]
      · dsimp only
        rw [htext_fix, hwords]

/-- Witness for C7: two large digit-bearing tokens on one line produce
exactly one region reading "7h 35m". -/
theorem C7_witness :
    ∃ b, ocr_line_boxes [bigTok, bigTok2] 40 18 = [b] ∧
      b.text = joinWords (([bigTok, bigTok2] :
        List OcrToken).map OcrToken.text) :=
  ( C7_theorem [bigTok, bigTok2] 40 18).2 (1, 1, 1)
    (by decide) (by decide) ⟨bigTok, by decide, by decide⟩
